import Mathlib

/-!
Verification of the leavex-tools harvesting pipeline.

This file gives a shallow embedding of the Python sources
`get-eu-mp.py` (roster discovery, profile parsing, orchestration,
CSV output) and `apply_meps_overrides.py` (override merge), and
proves or refutes the frozen behavioural claims about them.

Strings are modelled as lists of characters (`Str`); the Python
string primitives used by the code (`strip`, `split`, `in`,
`startswith`, `str.split()` with no separator, `urlparse().path`)
are embedded as executable functions on `Str`.
-/

set_option maxHeartbeats 1000000
set_option synthInstance.maxHeartbeats 200000

/-- Characters treated as whitespace by Python's `str.strip()` / `str.split()`. -/
def isWs (c : Char) : Bool :=
  c = ' ' || c = '\t' || c = '\n' || c = '\r' || c = '\x0b' || c = '\x0c'

/-- Python strings, modelled as lists of characters. -/
abbrev Str := List Char

/-- Remove trailing characters satisfying `p` (the tail half of `str.strip`). -/
def dropTrailingBy (p : Char → Bool) : Str → Str
  | [] => []
  | c :: t =>
    match dropTrailingBy p t with
    | [] => if p c then [] else [c]
    | r => c :: r

/-- Python `s.strip(chars)` generalised over a character predicate. -/
def pyStripBy (p : Char → Bool) (s : Str) : Str :=
  dropTrailingBy p (s.dropWhile p)

/-- Python `s.strip()` (whitespace strip). -/
def pyStrip (s : Str) : Str := pyStripBy isWs s

/-- Python `s.strip("/")`. -/
def stripSlashes (s : Str) : Str := pyStripBy (fun c => c = '/') s

/-- Accumulator-based splitter behind `pyWords`; `acc` holds the current word reversed. -/
def wordsAux (acc : Str) : Str → List Str
  | [] => if acc.isEmpty then [] else [acc.reverse]
  | c :: t =>
    if isWs c then
      if acc.isEmpty then wordsAux [] t else acc.reverse :: wordsAux [] t
    else
      wordsAux (c :: acc) t

/-- Python `s.split()` with no separator: whitespace runs split, empties dropped. -/
def pyWords (s : Str) : List Str := wordsAux [] s

/-- Python `sep.join(pieces)`. -/
def joinWith (sep : Str) : List Str → Str
  | [] => []
  | [w] => w
  | w :: ws => w ++ sep ++ joinWith sep ws

/-- Whitespace normalisation `" ".join(s.split())` from `parse_mep_profile`. -/
def normWs (s : Str) : Str := joinWith [' '] (pyWords s)

/-- Python `needle in hay` (substring containment). -/
def containsSub (hay needle : Str) : Bool :=
  match hay with
  | [] => needle.isEmpty
  | c :: t => needle.isPrefixOf (c :: t) || containsSub t needle

/-- Python `s.split(sep, 1)` restricted to the case where `sep` occurs:
returns the parts before and after the first occurrence of `sep`. -/
def splitFirst (sep : Str) : Str → Option (Str × Str)
  | [] => if sep.isEmpty then some ([], []) else none
  | c :: t =>
    if sep.isPrefixOf (c :: t) then some ([], (c :: t).drop sep.length)
    else
      match splitFirst sep t with
      | some lr => some (c :: lr.1, lr.2)
      | none => none

/-- Index of the first occurrence of `sep` in a string, if any. -/
def firstOcc (sep : Str) : Str → Option Nat
  | [] => if sep.isEmpty then some 0 else none
  | c :: t =>
    if sep.isPrefixOf (c :: t) then some 0
    else (firstOcc sep t).map (· + 1)

/-- Whether `sep` occurs in `s` starting at index `i`. -/
def occursAtB (sep s : Str) (i : Nat) : Bool := sep.isPrefixOf (s.drop i)

/-- Python `s.split(c)` for a single-character separator (empties kept). -/
def splitOnChar (sep : Char) : Str → List Str
  | [] => [[]]
  | c :: t =>
    if c = sep then [] :: splitOnChar sep t
    else
      match splitOnChar sep t with
      | [] => [[c]]
      | h :: r => (c :: h) :: r

/-- Python `s.isupper()`: at least one cased character and no lowercase one. -/
def pyIsUpper (s : Str) : Bool :=
  s.any (fun c => c.isAlpha) && s.all (fun c => !c.isLower)

/- HTML-page abstraction.  `parse_mep_profile` interrogates the parsed soup
only through the queries below, so a page is modelled by their results. -/

/-- Abstraction of a fetched profile page: the results of the element queries
performed by `parse_mep_profile` on the BeautifulSoup document. -/
structure Page where
  /-- stripped text of the first `h1` element, when an `h1` exists -/
  h1Text : Option Str
  /-- all string nodes of the document, in document order -/
  textCandidates : List Str
  /-- whether the page text contains the phrase `Group of the` -/
  hasGroupOfThe : Bool
  /-- stripped text of the political-group heading element, when present -/
  politicalGroupText : Option Str
  /-- text of the country/party block element via `get_text(" ", strip=True)`, when present -/
  countryBlockText : Option Str
  /-- `href` of the `a.link_email` element, when present with an `href` -/
  emailHref : Option Str
  /-- `href` of the `a.link_twitt` element, when present with an `href` -/
  twittHref : Option Str
deriving DecidableEq, Repr

/-- Record assembled for one member (dataclass `MEP`). -/
structure MEP where
  mep_id : Str
  name : Str
  profile_url : Str
  email : Option Str
  x_url : Option Str
  x_handle : Option Str
  political_group : Option Str
  country : Option Str
  national_party : Option Str
  country_and_national_party : Option Str
deriving DecidableEq, Repr

/-- The literal separator of the country/party block. -/
def sepDash : Str := [' ', '-', ' ']

/-- The `mailto:` scheme marker. -/
def mailtoLit : Str := "mailto:".data

/-- Country/party splitting step of `parse_mep_profile` (lines 164-177):
whitespace-normalise the raw block, then split on the first `" - "`. -/
def splitCountryBlock (raw : Str) : Option Str × Option Str :=
  if raw.isEmpty then (none, none)
  else
    let cleaned := normWs raw
    if containsSub cleaned sepDash then
      match splitFirst sepDash cleaned with
      | some lr => (some (pyStrip lr.1), some (pyStrip lr.2))
      | none => (some cleaned, none)
    else (some cleaned, none)

/- Model of `urllib.parse.urlparse(url).path` for the inputs the scraper
feeds it (a fragment split, an optional scheme, an optional `//netloc`,
a query split). -/

/-- Whether a candidate scheme prefix is valid for `urlparse` (letter first,
then letters, digits, `+`, `-` or `.`). -/
def validScheme (s : Str) : Bool :=
  !s.isEmpty && (s.headD 'a').isAlpha &&
    s.all (fun c => c.isAlphanum || c = '+' || c = '-' || c = '.')

/-- Drop a leading `scheme:` when present and valid. -/
def stripScheme (s : Str) : Str :=
  let sch := s.takeWhile (fun c => c ≠ ':')
  if sch.length < s.length && validScheme sch then s.drop (sch.length + 1) else s

/-- Drop a leading `//netloc`; the returned path starts at the first `/`
after the authority (or is empty when there is none). -/
def dropNetloc (s : Str) : Str :=
  match s with
  | '/' :: '/' :: rest => rest.dropWhile (fun c => c ≠ '/')
  | _ => s

/-- Path component of `urlparse(url)`: remove fragment, query, scheme and netloc. -/
def urlparsePath (u : Str) : Str :=
  dropNetloc (stripScheme ((u.takeWhile (fun c => c ≠ '#')).takeWhile (fun c => c ≠ '?')))

/-- Embedding of `extract_x_handle_from_url` (lines 102-117). -/
def extractXHandleFromUrl (xUrl : Str) : Option Str :=
  if xUrl.isEmpty then none
  else
    let path := urlparsePath xUrl
    if path.isEmpty then none
    else
      let handle := (splitOnChar '/' (stripSlashes path)).headD []
      if handle.isEmpty then none else some handle

/-- Synthetic placeholder name `"MEP-<id>"`. -/
def mepPlaceholder (mepId : Str) : Str := "MEP-".data ++ mepId

/-- Fallback text scan of the name extraction (lines 141-146): first text node
whose stripped form has at least two words and is not upper-case, provided the
page text contains `Group of the`. -/
def scanNameList (ts : List Str) (hasG : Bool) : Str :=
  match ts with
  | [] => []
  | t :: rest =>
    let s := pyStrip t
    if decide ((pyWords s).length ≥ 2) && !pyIsUpper s && hasG then s
    else scanNameList rest hasG

/-- Field extraction and record assembly of `parse_mep_profile`
(lines 129-209) on a successfully fetched page. -/
def assembleMep (mepId url : Str) (pg : Page) : MEP :=
    let nameA : Str :=
      match pg.h1Text with
      | some s => s
      | none => []
    let name0 : Str :=
      if nameA.isEmpty then scanNameList pg.textCandidates pg.hasGroupOfThe else nameA
    let name : Str := if name0.isEmpty then mepPlaceholder mepId else name0
    let cnp := match pg.countryBlockText with
      | none => (none, none)
      | some raw => splitCountryBlock raw
    let email : Option Str :=
      match pg.emailHref with
      | some href =>
        if mailtoLit.isPrefixOf href then some (pyStrip (href.drop mailtoLit.length))
        else none
      | none => none
    let xPair : Option Str × Option Str :=
      match pg.twittHref with
      | some href => (some href, extractXHandleFromUrl href)
      | none => (none, none)
    { mep_id := mepId
      name := name
      profile_url := url
      email := email
      x_url := xPair.1
      x_handle := xPair.2
      political_group := pg.politicalGroupText
      country := cnp.1
      national_party := cnp.2
      country_and_national_party := pg.countryBlockText }

/-- Embedding of `parse_mep_profile` (lines 120-209); `fetched` is the result
of `fetch(url)` abstracted to the page queries the parser performs; a failed
fetch yields `None`. -/
def parseMepProfile (mepId url : Str) (fetched : Option Page) : Option MEP :=
  match fetched with
  | none => none
  | some pg => some (assembleMep mepId url pg)

/- Identifier discovery (`get_all_mep_ids_and_urls`, lines 63-99). -/

/-- Site root `BASE_URL`. -/
def baseUrlLit : Str := "https://www.europarl.europa.eu".data

/-- The per-member path marker `"/meps/en/"`. -/
def mepsPathLit : Str := "/meps/en/".data

/-- Canonical profile URL `urljoin(BASE_URL, f"/meps/en/{mep_id}")`. -/
def canonicalUrl (mepId : Str) : Str := baseUrlLit ++ mepsPathLit ++ mepId

/-- First match of the regex `/meps/en/(\d+)` in a string: the maximal digit
run following the first position where the whole pattern matches. -/
def regexSearchMepId : Str → Option Str
  | [] => none
  | c :: t =>
    if mepsPathLit.isPrefixOf (c :: t) then
      let digits := ((c :: t).drop mepsPathLit.length).takeWhile Char.isDigit
      if digits.isEmpty then regexSearchMepId t else some digits
    else regexSearchMepId t

/-- Python-dict assignment on an insertion-ordered association list:
an existing key keeps its position and gets the new value, a new key
is appended at the end. -/
def assocSet (m : List (Str × Str)) (k v : Str) : List (Str × Str) :=
  match m with
  | [] => [(k, v)]
  | (k', v') :: t => if k' = k then (k', v) :: t else (k', v') :: assocSet t k v

/-- One link of the roster scan (body of the `for a in soup.find_all` loop). -/
def discoverStep (m : List (Str × Str)) (href : Str) : List (Str × Str) :=
  if containsSub href mepsPathLit then
    match regexSearchMepId href with
    | some mid => assocSet m mid (canonicalUrl mid)
    | none => m
  else m

/-- Log line printed before fetching the roster. -/
def fetchLogLine : Str :=
  "[INFO] Fetching full list: https://www.europarl.europa.eu/meps/en/full-list/all".data

/-- Log line printed after the roster scan. -/
def foundLogLine (n : Nat) : Str :=
  "[INFO] Found ".data ++ (toString n).data ++ " unique MEP IDs".data

/-- Embedding of `get_all_mep_ids_and_urls` on an already fetched roster,
abstracted to the list of `href` attribute values found on it; returns the
identifier-to-URL mapping (insertion-ordered dict) and the printed log lines. -/
def getAllMepIdsAndUrls (hrefs : List Str) : List (Str × Str) × List Str :=
  let m := hrefs.foldl discoverStep []
  (m, [fetchLogLine, foundLogLine m.length])

/- Orchestrator (`scrape_all_meps`, lines 212-234). -/

/-- Externally observable events of one orchestrator run. -/
inductive Ev where
  /-- the profile fetch issued for one identifier -/
  | fetch : Str → Ev
  /-- one `time.sleep(REQUEST_DELAY_SECONDS)` call -/
  | sleep : Ev
deriving DecidableEq, Repr

/-- Python truthiness of an optional string (`not mep.x_url`). -/
def isTruthyOptStr : Option Str → Bool
  | none => false
  | some s => !s.isEmpty

/-- Embedding of the per-member loop of `scrape_all_meps`: returns the
accumulated records, the number of identifiers skipped by the
`if mep is None: continue` branch, and the event trace.  `oracle` abstracts
`fetch`: the page content obtained for a URL, or `none` on fetch failure. -/
def scrapeGo (onlyWithX : Bool) (oracle : Str → Option Page) :
    List (Str × Str) → List MEP × Nat × List Ev
  | [] => ([], 0, [])
  | (mid, url) :: rest =>
    match parseMepProfile mid url (oracle url) with
    | none =>
      let r := scrapeGo onlyWithX oracle rest
      (r.1, r.2.1 + 1, Ev.fetch mid :: r.2.2)
    | some mep =>
      let r := scrapeGo onlyWithX oracle rest
      let keep := !(onlyWithX && !isTruthyOptStr mep.x_url)
      ((if keep then mep :: r.1 else r.1), r.2.1, Ev.fetch mid :: Ev.sleep :: r.2.2)

/-- Trace predicate for the stated claim C3: every fetch event is immediately
followed by a sleep event (the rate-limit delay is paid after every fetch). -/
def delayAfterEveryFetch : List Ev → Bool
  | [] => true
  | Ev.sleep :: rest => delayAfterEveryFetch rest
  | Ev.fetch _ :: Ev.sleep :: rest => delayAfterEveryFetch rest
  | Ev.fetch _ :: _ => false

/-- Per-item trace actually produced by the loop: a failed fetch pays no delay. -/
def itemTrace (oracle : Str → Option Page) (it : Str × Str) : List Ev :=
  match oracle it.2 with
  | none => [Ev.fetch it.1]
  | some _ => [Ev.fetch it.1, Ev.sleep]

/- Output writer (`write_csv`, lines 237-251). -/

/-- CSV line terminator (csv module default). -/
def crlf : Str := ['\r', '\n']

/-- Quote one field as `csv.writer` with `QUOTE_MINIMAL` does: wrap in double
quotes, doubling inner quotes, exactly when the field contains the delimiter,
the quote character or a line-break character. -/
def csvQuoteField (s : Str) : Str :=
  if s.any (fun c => c = ';' || c = '"' || c = '\r' || c = '\n') then
    '"' :: (s.foldr (fun c acc => if c = '"' then '"' :: '"' :: acc else c :: acc) ['"'])
  else s

/-- Render an optional field: `None` is written as the empty string. -/
def optField : Option Str → Str
  | none => []
  | some s => csvQuoteField s

/-- Header row: the dataclass field names in declaration order, `;`-separated. -/
def headerRow : Str :=
  "mep_id;name;profile_url;email;x_url;x_handle;political_group;country;national_party;country_and_national_party".data
    ++ crlf

/-- One data row of the CSV output. -/
def mepRow (m : MEP) : Str :=
  joinWith [';']
    [csvQuoteField m.mep_id, csvQuoteField m.name, csvQuoteField m.profile_url,
      optField m.email, optField m.x_url, optField m.x_handle,
      optField m.political_group, optField m.country, optField m.national_party,
      optField m.country_and_national_party] ++ crlf

/-- Embedding of `write_csv`: the byte content written for a record sequence,
or `none` when the sequence is empty (the code warns and writes no file). -/
def writeCsvContent (meps : List MEP) : Option Str :=
  if meps.isEmpty then none
  else some (headerRow ++ (meps.map mepRow).flatten)

/- Override merge (`apply_meps_overrides.py`, function `main`, lines 44-78).
JSON values are abstracted: the merge logic never inspects field values
except for the truthiness and equality of the `id` field and for whether a
top-level override value is an object, so field values are modelled by a
flat value type. -/

/-- Abstracted JSON field value. -/
inductive FVal where
  /-- a JSON string -/
  | str : Str → FVal
  /-- any other scalar treated as falsy (e.g. `null`) -/
  | null : FVal
deriving DecidableEq, Repr

/-- Python truthiness of a field value (`if obj_id:`). -/
def fvTruthy : FVal → Bool
  | .str s => !s.isEmpty
  | .null => false

/-- A JSON object record: insertion-ordered key/value pairs. -/
abbrev Rec := List (Str × FVal)

/-- Top-level override value: either a JSON object or a non-object value
(which the merge skips with a warning). -/
inductive OvVal where
  /-- an object of field replacements -/
  | obj : List (Str × FVal) → OvVal
  /-- any non-object JSON value -/
  | scalar : FVal → OvVal
deriving DecidableEq, Repr

/-- The `"id"` key. -/
def idKey : Str := "id".data

/-- Python `obj.get(k)` on a record. -/
def recGet (r : Rec) (k : Str) : Option FVal :=
  match r with
  | [] => none
  | (k', v) :: t => if k' = k then some v else recGet t k

/-- Python `obj[k] = v` on a record: replace in place or append. -/
def recSet (r : Rec) (k : Str) (v : FVal) : Rec :=
  match r with
  | [] => [(k, v)]
  | (k', v') :: t => if k' = k then (k', v) :: t else (k', v') :: recSet t k v

/-- Apply a list of key/value assignments to a record
(the `for key, value in override_data.items(): base_obj[key] = value` loop,
also `dict.update`). -/
def applyFields (r : Rec) (fs : List (Str × FVal)) : Rec :=
  fs.foldl (fun acc kv => recSet acc kv.1 kv.2) r

/-- Lookup in the id index (a Python dict keyed by id values). -/
def idxLookup (idx : List (FVal × Nat)) (k : FVal) : Option Nat :=
  match idx with
  | [] => none
  | (k', p) :: t => if k' = k then some p else idxLookup t k

/-- Assignment in the id index. -/
def idxSet (idx : List (FVal × Nat)) (k : FVal) (p : Nat) : List (FVal × Nat) :=
  match idx with
  | [] => [(k, p)]
  | (k', p') :: t => if k' = k then (k', p) :: t else (k', p') :: idxSet t k p

/-- Index construction (lines 45-51): walk the base list, indexing each
record with a truthy `id` by its position; a later duplicate overwrites
(and is warned about). -/
def buildIndexAux (base : List Rec) (i : Nat) (idx : List (FVal × Nat)) :
    List (FVal × Nat) :=
  match base with
  | [] => idx
  | r :: t =>
    let idx' :=
      match recGet r idKey with
      | some v => if fvTruthy v then idxSet idx v i else idx
      | none => idx
    buildIndexAux t (i + 1) idx'

/-- The index built for a base list. -/
def buildIndex (base : List Rec) : List (FVal × Nat) := buildIndexAux base 0 []

/-- One override entry applied to the state (lines 54-71).  The state is the
current record list (base plus appended stubs, mutated in place via positions)
and the id index. -/
def mergeStep (st : List Rec × List (FVal × Nat)) (ov : Str × OvVal) :
    List Rec × List (FVal × Nat) :=
  match ov.2 with
  | .scalar _ => st
  | .obj fields =>
    match idxLookup st.2 (.str ov.1) with
    | some p => (st.1.set p (applyFields (st.1.getD p []) fields), st.2)
    | none =>
      (st.1 ++ [applyFields [(idKey, .str ov.1)] fields],
        idxSet st.2 (.str ov.1) st.1.length)

/-- Embedding of the merge: index the base data, then apply each override
entry in order; the result is the final record list (written as JSON). -/
def applyOverrides (base : List Rec) (ovs : List (Str × OvVal)) : List Rec :=
  (ovs.foldl mergeStep (base, buildIndex base)).1

/- Claim-side notions used to state C10. -/

/-- Whether an override value is a JSON object. -/
def isObjOv : OvVal → Bool
  | .obj _ => true
  | .scalar _ => false

/-- Fields of the override entry for id string `s`: the first entry keyed
`s` when its value is an object, otherwise the empty assignment list. -/
def ovEntryFields (s : Str) : List (Str × OvVal) → List (Str × FVal)
  | [] => []
  | (k, v) :: t =>
    if k = s then (match v with | .obj fs => fs | .scalar _ => []) else ovEntryFields s t

/-- Override fields applicable to a record, selected by its `id` value. -/
def ovFieldsForRec (r : Rec) (ovs : List (Str × OvVal)) : List (Str × FVal) :=
  match recGet r idKey with
  | some (.str s) => ovEntryFields s ovs
  | _ => []

/-- Whether some base record carries the id string `s`. -/
def baseHasId (base : List Rec) (s : Str) : Bool :=
  base.any (fun r => recGet r idKey = some (.str s))

/-- Number of override entries that create a new stub according to the claim:
object-valued entries whose id does not occur in the base. -/
def countNewStubs (base : List Rec) (ovs : List (Str × OvVal)) : Nat :=
  (ovs.filter (fun ov => isObjOv ov.2 && !baseHasId base ov.1)).length

/-- Decidable rendering of claim C10 as stated: the output preserves every
base record at its original position with exactly its override entry's keys
applied, and the output length is the base length plus the number of
object-valued override entries whose id is absent from the base. -/
def c10StatedB (base : List Rec) (ovs : List (Str × OvVal)) : Bool :=
  let out := applyOverrides base ovs
  (out.length = base.length + countNewStubs base ovs : Bool)
    && (List.range base.length).all (fun i =>
        out.getD i [] = applyFields (base.getD i []) (ovFieldsForRec (base.getD i []) ovs))

/-- A record has a well-formed id: the `id` key maps to a non-empty string. -/
def hasGoodId (r : Rec) : Bool :=
  match recGet r idKey with
  | some (.str s) => !s.isEmpty
  | _ => false

/-- Whether a record's `id` value is the truthy value `k` (the condition
under which the index construction indexes the record under `k`). -/
def matchesId (r : Rec) (k : FVal) : Bool :=
  match recGet r idKey with
  | some v => decide (v = k) && fvTruthy v
  | none => false

/-- Last position in a record list whose record's `id` is the truthy value `k`
(the position the index construction retains). -/
def lastPosOfId : List Rec → FVal → Option Nat
  | [], _ => none
  | r :: t, k =>
    match lastPosOfId t k with
    | some j => some (j + 1)
    | none => if matchesId r k then some 0 else none

/-- Map with the element's absolute position, starting at `n`. -/
def mapIdxFrom (f : Nat → Rec → Rec) (n : Nat) : List Rec → List Rec
  | [] => []
  | r :: t => f n r :: mapIdxFrom f (n + 1) t

/-- Override fields that the merge applies to the record at absolute
position `i`, given the initial index: the first object-valued entry whose
key is indexed at `i`. -/
def ovFieldsAtPos (idx0 : List (FVal × Nat)) (i : Nat) :
    List (Str × OvVal) → List (Str × FVal)
  | [] => []
  | (k, v) :: t =>
    match v with
    | .obj fs => if idxLookup idx0 (.str k) = some i then fs else ovFieldsAtPos idx0 i t
    | .scalar _ => ovFieldsAtPos idx0 i t

/-- Stub records appended by the merge: object-valued entries whose key is
not in the initial index. -/
def stubsOf (idx0 : List (FVal × Nat)) (ovs : List (Str × OvVal)) : List Rec :=
  ovs.filterMap (fun ov =>
    match ov.2 with
    | .obj fs =>
      if (idxLookup idx0 (.str ov.1)).isSome then none
      else some (applyFields [(idKey, .str ov.1)] fs)
    | .scalar _ => none)


/- Theorems.  First: the relation between `splitFirst`, `firstOcc`,
`containsSub` and the index-level notion of a first occurrence. -/

theorem isPrefixOf_nil_eq (sep : Str) : sep.isPrefixOf ([] : Str) = sep.isEmpty := by
  cases sep <;> rfl

theorem splitFirst_eq_firstOcc (sep : Str) :
    ∀ s : Str, splitFirst sep s =
      (firstOcc sep s).map (fun i => (s.take i, s.drop (i + sep.length)))
  | [] => by
    cases h : sep.isEmpty <;> simp [splitFirst, firstOcc, h]
  | c :: t => by
    cases h : sep.isPrefixOf (c :: t)
    · have ih := splitFirst_eq_firstOcc sep t
      simp only [splitFirst, firstOcc, h, Bool.false_eq_true, ite_false, ih]
      cases hf : firstOcc sep t <;>
        simp [List.take, List.drop, Nat.add_right_comm]
    · simp [splitFirst, firstOcc, h]

theorem firstOcc_some_spec (sep : Str) :
    ∀ (s : Str) (i : Nat), firstOcc sep s = some i →
      occursAtB sep s i = true ∧ ∀ j, j < i → occursAtB sep s j = false
  | [], i => by
    cases h : sep.isEmpty
    · intro hi
      simp [firstOcc, h] at hi
    · intro hi
      simp only [firstOcc, h, ite_true, Option.some_inj] at hi
      subst hi
      constructor
      · simp [occursAtB, isPrefixOf_nil_eq, h]
      · omega
  | c :: t, i => by
    intro hi
    cases h : sep.isPrefixOf (c :: t)
    · rw [firstOcc, h] at hi
      simp only [Bool.false_eq_true, ite_false, Option.map_eq_some'] at hi
      obtain ⟨i', hi', rfl⟩ := hi
      obtain ⟨h1, h2⟩ := firstOcc_some_spec sep t i' hi'
      refine ⟨by simpa [occursAtB] using h1, ?_⟩
      intro j hj
      cases j with
      | zero => simpa [occursAtB] using h
      | succ j' => simpa [occursAtB] using h2 j' (by omega)
    · rw [firstOcc, h] at hi
      simp only [ite_true, Option.some_inj] at hi
      subst hi
      exact ⟨by simpa [occursAtB] using h, by omega⟩

theorem firstOcc_none_spec (sep : Str) :
    ∀ s : Str, firstOcc sep s = none → ∀ j, occursAtB sep s j = false
  | [] => by
    intro h j
    cases he : sep.isEmpty
    · simp [occursAtB, isPrefixOf_nil_eq, he]
    · simp [firstOcc, he] at h
  | c :: t => by
    intro h j
    cases hp : sep.isPrefixOf (c :: t)
    · rw [firstOcc, hp] at h
      simp only [Bool.false_eq_true, ite_false, Option.map_eq_none'] at h
      cases j with
      | zero => simpa [occursAtB] using hp
      | succ j' => simpa [occursAtB] using firstOcc_none_spec sep t h j'
    · simp [firstOcc, hp] at h

theorem firstOcc_eq_of_min (sep s : Str) (i : Nat)
    (hocc : occursAtB sep s i = true)
    (hmin : ∀ j, j < i → occursAtB sep s j = false) :
    firstOcc sep s = some i := by
  cases hf : firstOcc sep s with
  | none => exact absurd hocc (by simp [firstOcc_none_spec sep s hf i])
  | some i' =>
    obtain ⟨h1, h2⟩ := firstOcc_some_spec sep s i' hf
    rcases Nat.lt_trichotomy i i' with h | h | h
    · exact absurd hocc (by simp [h2 i h])
    · rw [h]
    · exact absurd h1 (by simp [hmin i' h])

theorem containsSub_eq_isSome (sep : Str) :
    ∀ s : Str, containsSub s sep = (firstOcc sep s).isSome
  | [] => by cases h : sep.isEmpty <;> simp [containsSub, firstOcc, h, List.isPrefixOf]
  | c :: t => by
    cases h : sep.isPrefixOf (c :: t)
    · simp [containsSub, firstOcc, h, containsSub_eq_isSome sep t]
    · simp [containsSub, firstOcc, h]

theorem occursAtB_eq_false_of_le (sep s : Str) (j : Nat)
    (hsep : sep ≠ []) (h : s.length ≤ j) : occursAtB sep s j = false := by
  unfold occursAtB
  rw [List.drop_eq_nil_of_le h, isPrefixOf_nil_eq]
  cases sep
  · exact absurd rfl hsep
  · rfl

theorem splitCountryBlock_of_firstOcc_some (raw : Str) (hraw : raw ≠ []) (i : Nat)
    (hf : firstOcc sepDash (normWs raw) = some i) :
    splitCountryBlock raw =
      (some (pyStrip ((normWs raw).take i)), some (pyStrip ((normWs raw).drop (i + 3)))) := by
  obtain ⟨c, t, rfl⟩ : ∃ c t, raw = c :: t := by
    cases raw
    · exact absurd rfl hraw
    · exact ⟨_, _, rfl⟩
  simp only [splitCountryBlock, List.isEmpty_cons, Bool.false_eq_true, ite_false,
    containsSub_eq_isSome, hf, Option.isSome_some, ite_true,
    splitFirst_eq_firstOcc, Option.map_some']
  rfl

theorem splitCountryBlock_of_firstOcc_none (raw : Str) (hraw : raw ≠ [])
    (hf : firstOcc sepDash (normWs raw) = none) :
    splitCountryBlock raw = (some (normWs raw), none) := by
  obtain ⟨c, t, rfl⟩ : ∃ c t, raw = c :: t := by
    cases raw
    · exact absurd rfl hraw
    · exact ⟨_, _, rfl⟩
  simp only [splitCountryBlock, List.isEmpty_cons, Bool.false_eq_true, ite_false,
    containsSub_eq_isSome, hf, Option.isSome_none, ite_false]

/-- Claim C1: for every profile page whose country/party block is present
(with non-empty raw text), the whitespace-normalised block is split on the
first occurrence of the literal `" - "`; the stripped left part becomes
`country`, the stripped right part becomes `national_party`; with no
separator the whole normalised block becomes `country` and `national_party`
is absent. -/
theorem c1_country_party_split (raw : Str) (hraw : raw ≠ []) :
    (∀ i, occursAtB sepDash (normWs raw) i = true →
        (∀ j, j < i → occursAtB sepDash (normWs raw) j = false) →
        splitCountryBlock raw =
          (some (pyStrip ((normWs raw).take i)),
            some (pyStrip ((normWs raw).drop (i + 3)))))
    ∧ ((∀ j, occursAtB sepDash (normWs raw) j = false) →
        splitCountryBlock raw = (some (normWs raw), none))
    ∧ (∀ mid url pg, pg.countryBlockText = some raw →
        ∃ m, parseMepProfile mid url (some pg) = some m ∧
          m.country = (splitCountryBlock raw).1 ∧
          m.national_party = (splitCountryBlock raw).2) := by
  refine ⟨?_, ?_, ?_⟩
  · intro i hocc hmin
    exact splitCountryBlock_of_firstOcc_some raw hraw i (firstOcc_eq_of_min _ _ i hocc hmin)
  · intro habs
    cases hf : firstOcc sepDash (normWs raw) with
    | none => exact splitCountryBlock_of_firstOcc_none raw hraw hf
    | some i =>
      have := (firstOcc_some_spec _ _ _ hf).1
      rw [habs i] at this
      exact absurd this (by simp)
  · intro mid url pg hpg
    refine ⟨_, rfl, ?_, ?_⟩ <;> simp [assembleMep, hpg]

/-- Witness for C1: the two round-trip examples from the claim, obtained by
instantiating `c1_country_party_split`. -/
theorem c1_split_witness :
    splitCountryBlock "Finland - Kansallinen Kokoomus (Finland)".data =
      (some "Finland".data, some "Kansallinen Kokoomus (Finland)".data)
    ∧ splitCountryBlock "Malta".data = (some "Malta".data, none) := by
  constructor
  · have h := (c1_country_party_split "Finland - Kansallinen Kokoomus (Finland)".data
      (by decide)).1 7 (by decide) (by decide)
    exact h.trans (by decide)
  · have h := (c1_country_party_split "Malta".data (by decide)).2.1 ?_
    · exact h
    · intro j
      rcases Nat.lt_or_ge j 5 with hj | hj
      · interval_cases j <;> decide
      · refine occursAtB_eq_false_of_le _ _ _ (by decide) ?_
        calc (normWs "Malta".data).length = 5 := by decide
        _ ≤ j := hj

/- Lemmas for C5: the head segment of a slash-stripped path is the first
non-empty segment of the path. -/

theorem splitOnChar_ne_nil (sep : Char) : ∀ s : Str, splitOnChar sep s ≠ []
  | [] => by simp [splitOnChar]
  | c :: t => by
    by_cases h : c = sep
    · simp [splitOnChar, h]
    · simp only [splitOnChar, h, ite_false]
      cases hs : splitOnChar sep t <;> simp

theorem splitOnChar_headD (sep : Char) :
    ∀ s : Str, (splitOnChar sep s).headD [] = s.takeWhile (· != sep)
  | [] => by simp [splitOnChar]
  | c :: t => by
    by_cases h : c = sep
    · simp [splitOnChar, h, List.takeWhile_cons]
    · simp only [splitOnChar, h, ite_false, List.takeWhile_cons, bne_iff_ne, ne_eq,
        not_false_eq_true, if_pos]
      cases hs : splitOnChar sep t with
      | nil => exact absurd hs (splitOnChar_ne_nil sep t)
      | cons hh r =>
        have := splitOnChar_headD sep t
        rw [hs] at this
        simp only [List.headD_cons] at this ⊢
        rw [this]

theorem dropTrailingBy_cons_neg (p : Char → Bool) (c : Char) (t : Str) (hc : p c = false) :
    dropTrailingBy p (c :: t) = c :: dropTrailingBy p t := by
  rw [dropTrailingBy]
  cases h : dropTrailingBy p t <;> simp [hc]

theorem dropTrailingBy_nil_all (p : Char → Bool) :
    ∀ t : Str, dropTrailingBy p t = [] → ∀ x ∈ t, p x = true
  | [] => by intro _ x hx; cases hx
  | a :: t => by
    intro h x hx
    rw [dropTrailingBy] at h
    cases ht : dropTrailingBy p t with
    | nil =>
      rw [ht] at h
      have ha : p a = true := by
        by_contra hpa
        simp [Bool.not_eq_true] at hpa
        simp [hpa] at h
      rcases hx with _ | hx
      · exact ha
      · exact dropTrailingBy_nil_all p t ht x (by assumption)
    | cons r rs => rw [ht] at h; simp at h

theorem takeWhile_dropTrailingBy (sep : Char) :
    ∀ q : Str, (dropTrailingBy (· == sep) q).takeWhile (· != sep) = q.takeWhile (· != sep)
  | [] => rfl
  | a :: t => by
    by_cases h : a = sep
    · subst h
      rw [dropTrailingBy]
      cases ht : dropTrailingBy (· == a) t with
      | nil => simp [List.takeWhile_cons]
      | cons r rs => simp [List.takeWhile_cons]
    · rw [dropTrailingBy_cons_neg _ _ _ (by simp [h])]
      cases ht : dropTrailingBy (· == sep) t with
      | nil =>
        simp only [List.takeWhile_cons, bne_iff_ne, ne_eq, h, not_false_eq_true, if_pos,
          List.takeWhile_nil]
        cases t with
        | nil => simp
        | cons b t' =>
          have hb := dropTrailingBy_nil_all (· == sep) (b :: t') ht b (by simp)
          simp only [beq_iff_eq] at hb
          simp [List.takeWhile_cons, hb]
      | cons r rs =>
        have := takeWhile_dropTrailingBy sep t
        rw [ht] at this
        simp only [List.takeWhile_cons, bne_iff_ne, ne_eq, h, not_false_eq_true, if_pos, this]

theorem handleCore_eq (p : Str) :
    (if ((splitOnChar '/' (stripSlashes p)).headD []).isEmpty then none
      else some ((splitOnChar '/' (stripSlashes p)).headD [])) =
    (splitOnChar '/' p).find? (fun w => !w.isEmpty) := by
  induction p with
  | nil => rfl
  | cons c q ih =>
    by_cases hc : c = '/'
    · subst hc
      have hs : stripSlashes ('/' :: q) = stripSlashes q := by
        simp [stripSlashes, pyStripBy, List.dropWhile_cons]
      rw [hs]
      have hsplit : splitOnChar '/' ('/' :: q) = [] :: splitOnChar '/' q := by
        simp [splitOnChar]
      rw [hsplit, List.find?_cons]
      simpa using ih
    · have hs : stripSlashes (c :: q) = c :: dropTrailingBy (· == '/') q := by
        simp only [stripSlashes, pyStripBy, List.dropWhile_cons]
        rw [if_neg (by simp [hc])]
        exact dropTrailingBy_cons_neg _ _ _ (by simp [hc])
      rw [hs]
      have hhead : (splitOnChar '/' (c :: dropTrailingBy (· == '/') q)).headD [] =
          c :: (dropTrailingBy (· == '/') q).takeWhile (· != '/') := by
        rw [splitOnChar_headD]
        simp [List.takeWhile_cons, hc]
      have hsplit : (splitOnChar '/' (c :: q)).find? (fun w => !w.isEmpty) =
          some (c :: q.takeWhile (· != '/')) := by
        cases hq : splitOnChar '/' q with
        | nil => exact absurd hq (splitOnChar_ne_nil '/' q)
        | cons hh r =>
          have hh' : hh = q.takeWhile (· != '/') := by
            have := splitOnChar_headD '/' q
            rw [hq] at this
            simpa using this
          simp only [splitOnChar, hc, ite_false, hq, List.find?_cons]
          simp [hh']
      rw [hsplit, hhead]
      simp [takeWhile_dropTrailingBy]

/-- Claim C5: for every profile page with a social-link element, `x_url` is
the link's target and `x_handle` is the first non-empty path segment of the
target's path component (absent when the path has no non-empty segment). -/
theorem c5_social_handle :
    (∀ u : Str, extractXHandleFromUrl u =
      (splitOnChar '/' (urlparsePath u)).find? (fun w => !w.isEmpty))
    ∧ (∀ mid url pg href, pg.twittHref = some href →
        ∃ m, parseMepProfile mid url (some pg) = some m ∧
          m.x_url = some href ∧ m.x_handle = extractXHandleFromUrl href) := by
  constructor
  · intro u
    rw [← handleCore_eq (urlparsePath u)]
    cases hu : u.isEmpty
    · rw [extractXHandleFromUrl, if_neg (by simp [hu])]
      cases hp : (urlparsePath u).isEmpty
      · rw [if_neg (by simp [hp])]
      · rw [if_pos (by simp [hp])]
        have : urlparsePath u = [] := by simpa [List.isEmpty_iff] using hp
        rw [this]
        rfl
    · have : u = [] := by simpa [List.isEmpty_iff] using hu
      subst this
      rfl
  · intro mid url pg href hpg
    refine ⟨_, rfl, ?_, ?_⟩ <;> simp [assembleMep, hpg]

/-- Witness for C5: the two social-link examples from the claim, and the
wiring into a parsed record, obtained by instantiating `c5_social_handle`. -/
theorem c5_social_handle_witness :
    extractXHandleFromUrl "https://x.com/JaneDoe".data = some "JaneDoe".data
    ∧ extractXHandleFromUrl "https://x.com/".data = none
    ∧ ∃ m, parseMepProfile "1".data "u".data (some
        { h1Text := none, textCandidates := [], hasGroupOfThe := false,
          politicalGroupText := none, countryBlockText := none,
          emailHref := none, twittHref := some "https://x.com/JaneDoe".data }) = some m ∧
        m.x_url = some "https://x.com/JaneDoe".data ∧
        m.x_handle = extractXHandleFromUrl "https://x.com/JaneDoe".data := by
  refine ⟨?_, ?_, ?_⟩
  · exact (c5_social_handle.1 "https://x.com/JaneDoe".data).trans (by decide)
  · exact (c5_social_handle.1 "https://x.com/".data).trans (by decide)
  · exact c5_social_handle.2 "1".data "u".data
      { h1Text := none, textCandidates := [], hasGroupOfThe := false,
        politicalGroupText := none, countryBlockText := none,
        emailHref := none, twittHref := some "https://x.com/JaneDoe".data }
      "https://x.com/JaneDoe".data rfl

/- Lemmas about the email extraction and the name fallback. -/

theorem ne_nil_of_isEmpty_false (l : Str) (h : l.isEmpty = false) : l ≠ [] := by
  cases l
  · simp at h
  · simp

theorem isPrefixOfProp (a b : Str) : a.isPrefixOf b = true ↔ a <+: b :=
  List.isPrefixOf_iff_prefix

/-- Counterexample to claim C6 as stated: for the mail-link target
`"mailto: jane.doe@example.org"` (a space after the scheme) the code also
strips surrounding whitespace, so the extracted email is not the target
with the `mailto:` prefix stripped. -/
theorem c6_mailto_counterexample :
    (parseMepProfile "1".data "u".data (some
      { h1Text := none, textCandidates := [], hasGroupOfThe := false,
        politicalGroupText := none, countryBlockText := none,
        emailHref := some "mailto: jane.doe@example.org".data,
        twittHref := none })).map MEP.email = some (some "jane.doe@example.org".data)
    ∧ ("mailto: jane.doe@example.org".data).drop mailtoLit.length =
        ' ' :: "jane.doe@example.org".data
    ∧ (parseMepProfile "1".data "u".data (some
      { h1Text := none, textCandidates := [], hasGroupOfThe := false,
        politicalGroupText := none, countryBlockText := none,
        emailHref := some "mailto: jane.doe@example.org".data,
        twittHref := none })).map MEP.email ≠
        some (some (("mailto: jane.doe@example.org".data).drop mailtoLit.length)) := by
  refine ⟨by decide, by decide, by decide⟩

/-- Claim C6 amended: `email` is present exactly when a mail-link target is
present and begins with `mailto:`; when present it equals the target with the
prefix removed and surrounding whitespace stripped. -/
theorem c6_email_amended (mid url : Str) (pg : Page) :
    ∃ m, parseMepProfile mid url (some pg) = some m ∧
      (m.email ≠ none ↔ ∃ href, pg.emailHref = some href ∧ mailtoLit.isPrefixOf href = true)
      ∧ (∀ href, pg.emailHref = some href → mailtoLit.isPrefixOf href = true →
          m.email = some (pyStrip (href.drop mailtoLit.length))) := by
  refine ⟨_, rfl, ?_, ?_⟩
  · cases h : pg.emailHref with
    | none => simp [assembleMep, h]
    | some href =>
      cases hp : mailtoLit.isPrefixOf href
      · have hp' : ¬ mailtoLit <+: href := fun hc => by
          rw [(isPrefixOfProp mailtoLit href).mpr hc] at hp
          exact Bool.true_eq_false.mp hp
        simp [assembleMep, h, hp, hp']
      · have hp' : mailtoLit <+: href := (isPrefixOfProp _ _).mp hp
        simp [assembleMep, h, hp, hp']
  · intro href h hp
    simp [assembleMep, h, hp]

/-- Witness for C6 (amended): the concrete extraction from the claim,
obtained by instantiating `c6_email_amended`. -/
theorem c6_email_witness :
    ∃ m, parseMepProfile "1".data "u".data (some
      { h1Text := none, textCandidates := [], hasGroupOfThe := false,
        politicalGroupText := none, countryBlockText := none,
        emailHref := some "mailto:jane.doe@example.org".data,
        twittHref := none }) = some m ∧
      m.email = some "jane.doe@example.org".data := by
  obtain ⟨m, hm, -, hval⟩ := c6_email_amended "1".data "u".data
    { h1Text := none, textCandidates := [], hasGroupOfThe := false,
      politicalGroupText := none, countryBlockText := none,
      emailHref := some "mailto:jane.doe@example.org".data,
      twittHref := none }
  refine ⟨m, hm, ?_⟩
  rw [hval "mailto:jane.doe@example.org".data rfl (by decide)]
  decide

/-- Claim C7: every assembled record has a non-empty `name`; when both the
heading strategy and the text-scan strategy fail to produce a non-empty
name, the name is the synthetic placeholder `"MEP-<id>"`. -/
theorem c7_name_nonempty (mid url : Str) (pg : Page) :
    ∃ m, parseMepProfile mid url (some pg) = some m ∧
      m.name ≠ []
      ∧ ((pg.h1Text.getD [] = [] ∧ scanNameList pg.textCandidates pg.hasGroupOfThe = []) →
          m.name = mepPlaceholder mid) := by
  have hA : (match pg.h1Text with | some s => s | none => ([] : Str)) = pg.h1Text.getD [] := by
    cases pg.h1Text <;> rfl
  refine ⟨_, rfl, ?_, ?_⟩
  · show (if _ then mepPlaceholder mid else _) ≠ []
    set nameA := (match pg.h1Text with | some s => s | none => ([] : Str)) with hna
    set name0 := if nameA.isEmpty then scanNameList pg.textCandidates pg.hasGroupOfThe
      else nameA with hn0
    cases h0 : name0.isEmpty
    · rw [if_neg (by simp [h0])]
      exact ne_nil_of_isEmpty_false _ h0
    · rw [if_pos (by simp [h0])]
      intro hcontra
      exact absurd ((List.append_eq_nil.mp hcontra).1) (by decide)
  · intro ⟨h1, h2⟩
    show (if _ then mepPlaceholder mid else _) = mepPlaceholder mid
    rw [hA, h1] at *
    simp [h2, hA, h1]

/-- Witness for C7: a page where both name strategies fail yields the
placeholder name, obtained by instantiating `c7_name_nonempty`. -/
theorem c7_name_witness :
    ∃ m, parseMepProfile "200".data "u".data (some
      { h1Text := some [], textCandidates := ["ALL CAPS TEXT".data], hasGroupOfThe := false,
        politicalGroupText := none, countryBlockText := none,
        emailHref := none, twittHref := none }) = some m ∧
      m.name = "MEP-200".data := by
  obtain ⟨m, hm, -, hph⟩ := c7_name_nonempty "200".data "u".data
    { h1Text := some [], textCandidates := ["ALL CAPS TEXT".data], hasGroupOfThe := false,
      politicalGroupText := none, countryBlockText := none,
      emailHref := none, twittHref := none }
  refine ⟨m, hm, ?_⟩
  rw [hph (by decide)]
  decide

/- Lemmas for C9: words produced by the whitespace splitter are non-empty
and free of whitespace, so a block with any non-whitespace character
normalises to a string with a non-whitespace head. -/

theorem wordsAux_sound :
    ∀ (s acc : Str), (∀ x ∈ acc, isWs x = false) →
      ∀ w ∈ wordsAux acc s, w ≠ [] ∧ ∀ x ∈ w, isWs x = false
  | [], acc => by
    intro hacc w hw
    rw [wordsAux] at hw
    cases hacc' : acc.isEmpty
    · rw [hacc'] at hw
      simp only [Bool.false_eq_true, ite_false, List.mem_singleton] at hw
      subst hw
      refine ⟨by simpa using ne_nil_of_isEmpty_false acc hacc', ?_⟩
      intro x hx
      exact hacc x (by simpa using hx)
    · rw [hacc'] at hw
      simp at hw
  | c :: t, acc => by
    intro hacc w hw
    rw [wordsAux] at hw
    cases hc : isWs c
    · rw [hc] at hw
      simp only [Bool.false_eq_true, ite_false] at hw
      exact wordsAux_sound t (c :: acc)
        (by
          intro x hx
          rcases hx with _ | hx
          · exact hc
          · exact hacc x (by assumption)) w hw
    · rw [hc] at hw
      simp only [ite_true] at hw
      cases hacc' : acc.isEmpty
      · rw [hacc'] at hw
        simp only [Bool.false_eq_true, ite_false, List.mem_cons] at hw
        rcases hw with rfl | hw
        · refine ⟨by simpa using ne_nil_of_isEmpty_false acc hacc', ?_⟩
          intro x hx
          exact hacc x (by simpa using hx)
        · exact wordsAux_sound t [] (by intro x hx; cases hx) w hw
      · rw [hacc'] at hw
        simp only [ite_true] at hw
        exact wordsAux_sound t [] (by intro x hx; cases hx) w hw

theorem wordsAux_ne_nil :
    ∀ (s acc : Str), (acc ≠ [] ∨ s.any (fun c => !isWs c) = true) →
      wordsAux acc s ≠ []
  | [], acc => by
    intro h
    rcases h with h | h
    · rw [wordsAux, if_neg (by simpa using h)]
      simp
    · simp at h
  | c :: t, acc => by
    intro h
    rw [wordsAux]
    cases hc : isWs c
    · simp only [Bool.false_eq_true, ite_false]
      exact wordsAux_ne_nil t (c :: acc) (Or.inl (by simp))
    · simp only [ite_true]
      cases hacc : acc.isEmpty
      · simp only [Bool.false_eq_true, ite_false]
        simp
      · simp only [ite_true]
        refine wordsAux_ne_nil t [] (Or.inr ?_)
        rcases h with h | h
        · exact absurd (by simpa [List.isEmpty_iff] using hacc) h
        · simpa [hc] using h

theorem normWs_head_nonWs (s : Str) (h : s.any (fun c => !isWs c) = true) :
    ∃ c t, normWs s = c :: t ∧ isWs c = false := by
  have hw : pyWords s ≠ [] := wordsAux_ne_nil s [] (Or.inr h)
  rw [normWs]
  cases hws : pyWords s with
  | nil => exact absurd hws hw
  | cons w ws =>
    have hsound := wordsAux_sound s [] (by intro x hx; cases hx) w (by rw [← pyWords, hws]; simp)
    obtain ⟨hwne, hwok⟩ := hsound
    cases hwc : w with
    | nil => exact absurd hwc hwne
    | cons wc wt =>
      refine ⟨wc, ?_, ?_, hwok wc (by simp [hwc])⟩
      · exact wt ++ (match ws with | [] => [] | _ :: _ => [' '] ++ joinWith [' '] ws)
      · cases ws <;> simp [joinWith, hwc]

theorem pyStrip_cons_ne_nil (c : Char) (t : Str) (hc : isWs c = false) :
    pyStrip (c :: t) ≠ [] := by
  rw [pyStrip, pyStripBy, List.dropWhile_cons, if_neg (by simp [hc]),
    dropTrailingBy_cons_neg _ _ _ hc]
  simp

theorem splitCountryBlock_country_some (raw : Str) (hraw : raw ≠ []) :
    ∃ cs, (splitCountryBlock raw).1 = some cs := by
  obtain ⟨c, t, rfl⟩ : ∃ c t, raw = c :: t := by
    cases raw
    · exact absurd rfl hraw
    · exact ⟨_, _, rfl⟩
  rw [splitCountryBlock]
  simp only [List.isEmpty_cons, Bool.false_eq_true, ite_false]
  cases hc : containsSub (normWs (c :: t)) sepDash
  · simp
  · simp only [ite_true]
    cases hs : splitFirst sepDash (normWs (c :: t)) <;> simp

theorem splitCountryBlock_party_imp_country (raw : Str) :
    (splitCountryBlock raw).2 ≠ none → (splitCountryBlock raw).1 ≠ none := by
  rw [splitCountryBlock]
  cases he : raw.isEmpty
  · simp only [Bool.false_eq_true, ite_false]
    cases hc : containsSub (normWs raw) sepDash
    · simp
    · simp only [ite_true]
      cases hs : splitFirst sepDash (normWs raw) <;> simp
  · simp

theorem splitCountryBlock_country_nonempty (raw : Str)
    (h : raw.any (fun c => !isWs c) = true) :
    ∃ cs, (splitCountryBlock raw).1 = some cs ∧ cs ≠ [] := by
  have hraw : raw ≠ [] := by
    cases raw
    · simp at h
    · simp
  obtain ⟨hc, ht, hnw, hns⟩ : ∃ hc ht, normWs raw = hc :: ht ∧ isWs hc = false := by
    obtain ⟨a, b, hab, hws⟩ := normWs_head_nonWs raw h
    exact ⟨a, b, hab, hws⟩
  obtain ⟨c, t, rfl⟩ : ∃ c t, raw = c :: t := by
    cases raw
    · exact absurd rfl hraw
    · exact ⟨_, _, rfl⟩
  rw [splitCountryBlock]
  simp only [List.isEmpty_cons, Bool.false_eq_true, ite_false]
  cases hcont : containsSub (normWs (c :: t)) sepDash
  · simp only [Bool.false_eq_true, ite_false]
    refine ⟨normWs (c :: t), rfl, ?_⟩
    rw [hnw]
    simp
  · simp only [ite_true]
    rw [containsSub_eq_isSome] at hcont
    obtain ⟨i, hi⟩ := Option.isSome_iff_exists.mp hcont
    rw [splitFirst_eq_firstOcc, hi, Option.map_some']
    have hipos : i ≠ 0 := by
      intro h0
      subst h0
      have := (firstOcc_some_spec _ _ _ hi).1
      rw [occursAtB, List.drop_zero, hnw] at this
      have : hc = ' ' := by
        cases hpm : sepDash.isPrefixOf (hc :: ht)
        · rw [hpm] at this; exact absurd this (by simp)
        · have := (isPrefixOfProp _ _).mp hpm
          obtain ⟨r, hr⟩ := this
          rw [sepDash] at hr
          injection hr with h1 _
          exact h1.symm
      rw [this] at hns
      simp [isWs] at hns
    obtain ⟨i', rfl⟩ := Nat.exists_eq_succ_of_ne_zero hipos
    refine ⟨pyStrip ((normWs (c :: t)).take (i' + 1)), rfl, ?_⟩
    rw [hnw]
    simp only [List.take_succ_cons]
    exact pyStrip_cons_ne_nil hc _ hns

/-- Claim C9: in every record from a profile page, a present `national_party`
implies a present `country`; `country` is present exactly when the raw
country/party block is present and non-empty; and a raw block containing any
non-whitespace character (as the stripped element text always does when
non-empty) yields a non-empty `country`. -/
theorem c9_country_presence (mid url : Str) (pg : Page) :
    ∃ m, parseMepProfile mid url (some pg) = some m ∧
      (m.national_party ≠ none → m.country ≠ none)
      ∧ (m.country ≠ none ↔ ∃ raw, pg.countryBlockText = some raw ∧ raw ≠ [])
      ∧ (∀ raw, pg.countryBlockText = some raw → raw.any (fun c => !isWs c) = true →
          ∃ cs, m.country = some cs ∧ cs ≠ []) := by
  refine ⟨_, rfl, ?_, ?_, ?_⟩
  · cases h : pg.countryBlockText with
    | none => simp [assembleMep, h]
    | some raw =>
      simp only [assembleMep, h]
      exact splitCountryBlock_party_imp_country raw
  · cases h : pg.countryBlockText with
    | none => simp [assembleMep, h]
    | some raw =>
      simp only [assembleMep, h]
      constructor
      · intro hc
        refine ⟨raw, rfl, ?_⟩
        intro hnil
        subst hnil
        exact hc (by rw [splitCountryBlock]; simp)
      · rintro ⟨raw', hr, hne⟩
        obtain rfl : raw = raw' := by injection hr
        obtain ⟨cs, hcs⟩ := splitCountryBlock_country_some raw hne
        simp [hcs]
  · intro raw h hany
    simp only [assembleMep, h]
    exact splitCountryBlock_country_nonempty raw hany

/-- Witness for C9: the Finland example instantiating `c9_country_presence`. -/
theorem c9_country_witness :
    ∃ m, parseMepProfile "1".data "u".data (some
      { h1Text := none, textCandidates := [], hasGroupOfThe := false,
        politicalGroupText := none,
        countryBlockText := some "Finland - Kansallinen Kokoomus (Finland)".data,
        emailHref := none, twittHref := none }) = some m ∧
      ∃ cs, m.country = some cs ∧ cs ≠ [] := by
  obtain ⟨m, hm, -, -, hne⟩ := c9_country_presence "1".data "u".data
    { h1Text := none, textCandidates := [], hasGroupOfThe := false,
      politicalGroupText := none,
      countryBlockText := some "Finland - Kansallinen Kokoomus (Finland)".data,
      emailHref := none, twittHref := none }
  exact ⟨m, hm, hne "Finland - Kansallinen Kokoomus (Finland)".data rfl (by decide)⟩

/- Claims about discovery (C2) and the orchestrator (C3, C4). -/

theorem parseMepProfile_none (mid url : Str) : parseMepProfile mid url none = none := rfl

theorem parseMepProfile_some (mid url : Str) (pg : Page) :
    parseMepProfile mid url (some pg) = some (assembleMep mid url pg) := rfl

theorem assocSet_mem (m : List (Str × Str)) (k v : Str) :
    ∀ kv ∈ assocSet m k v, kv ∈ m ∨ kv = (k, v) := by
  induction m with
  | nil =>
    intro kv hkv
    simp [assocSet] at hkv
    simp [hkv]
  | cons kv' t ih =>
    intro kv hkv
    rw [assocSet] at hkv
    by_cases hk : kv'.1 = k
    · rw [if_pos hk] at hkv
      rcases hkv with _ | hkv
      · right
        rw [← hk]
      · left
        exact List.mem_cons_of_mem _ (by assumption)
    · rw [if_neg hk] at hkv
      rcases hkv with _ | hkv
      · left
        exact List.mem_cons_self _ _
      · rcases ih kv (by assumption) with h | h
        · exact Or.inl (List.mem_cons_of_mem _ h)
        · exact Or.inr h

theorem discoverStep_mem (m : List (Str × Str)) (href : Str) :
    ∀ kv ∈ discoverStep m href, kv ∈ m ∨ kv.2 = canonicalUrl kv.1 := by
  intro kv hkv
  rw [discoverStep] at hkv
  cases hc : containsSub href mepsPathLit
  · rw [hc] at hkv
    simp only [Bool.false_eq_true, ite_false] at hkv
    exact Or.inl hkv
  · rw [hc] at hkv
    simp only [ite_true] at hkv
    cases hr : regexSearchMepId href with
    | none => rw [hr] at hkv; exact Or.inl hkv
    | some mid =>
      rw [hr] at hkv
      rcases assocSet_mem m mid (canonicalUrl mid) kv hkv with h | h
      · exact Or.inl h
      · right
        rw [h]

theorem discoverFold_canonical (hrefs : List Str) :
    ∀ m0 : List (Str × Str), (∀ kv ∈ m0, kv.2 = canonicalUrl kv.1) →
      ∀ kv ∈ hrefs.foldl discoverStep m0, kv.2 = canonicalUrl kv.1 := by
  induction hrefs with
  | nil => intro m0 h0 kv hkv; exact h0 kv hkv
  | cons href t ih =>
    intro m0 h0 kv hkv
    refine ih (discoverStep m0 href) ?_ kv hkv
    intro kv' hkv'
    rcases discoverStep_mem m0 href kv' hkv' with h | h
    · exact h0 kv' h
    · exact h

/-- Counterexample to claim C2 as stated: a roster in which two distinct
links yield the identifier `100` produces exactly the same log output (and
the same mapping) as the roster without the duplicate link, so the duplicate
is neither detected nor logged; it is silently collapsed by dictionary
assignment. -/
theorem c2_duplicate_silent_counterexample :
    regexSearchMepId "/meps/en/100".data = some "100".data
    ∧ regexSearchMepId "/meps/en/100/MIKA_AALTOLA/home".data = some "100".data
    ∧ (getAllMepIdsAndUrls
        ["/meps/en/100".data, "/meps/en/100/MIKA_AALTOLA/home".data, "/meps/en/200".data]).2 =
      (getAllMepIdsAndUrls ["/meps/en/100".data, "/meps/en/200".data]).2
    ∧ (getAllMepIdsAndUrls
        ["/meps/en/100".data, "/meps/en/100/MIKA_AALTOLA/home".data, "/meps/en/200".data]).1 =
      (getAllMepIdsAndUrls ["/meps/en/100".data, "/meps/en/200".data]).1 := by
  refine ⟨by decide, by decide, by decide, by decide⟩

/-- Claim C2 amended: duplicate identifiers during discovery are collapsed
silently — the only log lines are the fixed fetch line and the count line,
with no duplicate warning — and the entry retained for an identifier is the
canonical URL derived from the identifier itself, which is what every link
yielding that identifier (in particular the first one) produces. -/
theorem c2_discovery_amended (hrefs : List Str) :
    (getAllMepIdsAndUrls hrefs).2 =
      [fetchLogLine, foundLogLine (getAllMepIdsAndUrls hrefs).1.length]
    ∧ ∀ kv ∈ (getAllMepIdsAndUrls hrefs).1, kv.2 = canonicalUrl kv.1 := by
  constructor
  · rfl
  · exact discoverFold_canonical hrefs [] (by intro kv h; cases h)

/-- Witness for C2 (amended): the concrete roster with a duplicated
identifier, instantiating `c2_discovery_amended`. -/
theorem c2_discovery_witness :
    (getAllMepIdsAndUrls
      ["/meps/en/100".data, "/meps/en/100/MIKA_AALTOLA/home".data, "/meps/en/200".data]).2 =
      [fetchLogLine, foundLogLine 2]
    ∧ ((getAllMepIdsAndUrls
        ["/meps/en/100".data, "/meps/en/100/MIKA_AALTOLA/home".data,
          "/meps/en/200".data]).1.headD ([], [])).2 =
      canonicalUrl ((getAllMepIdsAndUrls
        ["/meps/en/100".data, "/meps/en/100/MIKA_AALTOLA/home".data,
          "/meps/en/200".data]).1.headD ([], [])).1 := by
  constructor
  · exact (c2_discovery_amended
      ["/meps/en/100".data, "/meps/en/100/MIKA_AALTOLA/home".data, "/meps/en/200".data]).1.trans
      (by decide)
  · exact (c2_discovery_amended
      ["/meps/en/100".data, "/meps/en/100/MIKA_AALTOLA/home".data, "/meps/en/200".data]).2
      _ (by decide)

/-- Counterexample to claim C3 as stated: in a run where the first
identifier's fetch fails and the second succeeds, the trace contains no
sleep event between the two fetches — the `continue` on a failed fetch
skips the rate-limiting delay. -/
theorem c3_delay_counterexample :
    (scrapeGo false
      (fun u => if u = "u1".data then none else some
        { h1Text := none, textCandidates := [], hasGroupOfThe := false,
          politicalGroupText := none, countryBlockText := none,
          emailHref := none, twittHref := none })
      [("1".data, "u1".data), ("2".data, "u2".data)]).2.2 =
      [Ev.fetch "1".data, Ev.fetch "2".data, Ev.sleep]
    ∧ delayAfterEveryFetch
      (scrapeGo false
        (fun u => if u = "u1".data then none else some
          { h1Text := none, textCandidates := [], hasGroupOfThe := false,
            politicalGroupText := none, countryBlockText := none,
            emailHref := none, twittHref := none })
        [("1".data, "u1".data), ("2".data, "u2".data)]).2.2 = false
    ∧ (fun u => if u = "u1".data then (none : Option Page) else some
        { h1Text := none, textCandidates := [], hasGroupOfThe := false,
          politicalGroupText := none, countryBlockText := none,
          emailHref := none, twittHref := none }) "u1".data = none := by
  refine ⟨by decide, by decide, by decide⟩

/-- Claim C3 amended: the rate-limiting delay is paid after every successful
fetch, but an identifier whose profile fetch returns the unavailability
sentinel is skipped immediately, with no delay before the next identifier is
processed: the run's trace is exactly, per identifier in order, a fetch
event followed by a sleep event on success and a bare fetch event on
failure. -/
theorem c3_trace_amended (b : Bool) (oracle : Str → Option Page)
    (items : List (Str × Str)) :
    (scrapeGo b oracle items).2.2 = (items.map (itemTrace oracle)).flatten := by
  induction items with
  | nil => rfl
  | cons it rest ih =>
    obtain ⟨mid, url⟩ := it
    cases ho : oracle url
    · simp only [scrapeGo, ho, parseMepProfile_none, parseMepProfile_some, List.map_cons, List.flatten_cons, itemTrace]
      rw [← ih]
      rfl
    · simp only [scrapeGo, ho, parseMepProfile_none, parseMepProfile_some, List.map_cons, List.flatten_cons, itemTrace]
      rw [← ih]
      rfl

theorem scrapeGo_characterisation (oracle : Str → Option Page) :
    ∀ items : List (Str × Str),
      (scrapeGo false oracle items).1 =
        items.filterMap (fun it => parseMepProfile it.1 it.2 (oracle it.2))
      ∧ (scrapeGo false oracle items).2.1 =
        (items.filter (fun it => (oracle it.2).isNone)).length
  | [] => ⟨rfl, rfl⟩
  | (mid, url) :: rest => by
    obtain ⟨ih1, ih2⟩ := scrapeGo_characterisation oracle rest
    cases ho : oracle url
    · constructor
      · simp only [scrapeGo, ho, parseMepProfile_none, parseMepProfile_some, List.filterMap_cons]
        exact ih1
      · simp only [scrapeGo, ho, parseMepProfile_none, parseMepProfile_some, List.filter_cons]
        simp only [Option.isNone_none, ite_true, List.length_cons]
        rw [ih2]
    · constructor
      · simp only [scrapeGo, ho, parseMepProfile_none, parseMepProfile_some, List.filterMap_cons]
        simp only [Bool.false_and, Bool.not_false, ite_true]
        rw [ih1]
      · simp only [scrapeGo, ho, parseMepProfile_none, parseMepProfile_some, List.filter_cons]
        simp only [Option.isNone_some, Bool.false_eq_true, ite_false]
        exact ih2

theorem scrapeGo_length_split (oracle : Str → Option Page) :
    ∀ items : List (Str × Str),
      (scrapeGo false oracle items).1.length +
        (items.filter (fun it => (oracle it.2).isNone)).length = items.length
  | [] => rfl
  | (mid, url) :: rest => by
    have ih := scrapeGo_length_split oracle rest
    cases ho : oracle url
    · simp only [scrapeGo, ho, parseMepProfile_none, parseMepProfile_some, List.filter_cons, Option.isNone_none,
        ite_true, List.length_cons]
      omega
    · simp only [scrapeGo, ho, parseMepProfile_none, parseMepProfile_some, List.filter_cons, Option.isNone_some,
        Bool.false_eq_true, ite_false, List.length_cons, Bool.false_and, Bool.not_false,
        ite_true]
      omega

/-- Claim C4: when the profile fetch fails for exactly one of the discovered
identifiers (and no inclusion filter is active), the orchestrator produces
exactly one record fewer than the number of identifiers, the number of
skipped identifiers is 1, the records are exactly the successful parses in
order, and the run terminates normally. -/
theorem c4_skip_one (items : List (Str × Str)) (oracle : Str → Option Page)
    (h : (items.filter (fun it => (oracle it.2).isNone)).length = 1) :
    (scrapeGo false oracle items).1.length + 1 = items.length
    ∧ (scrapeGo false oracle items).2.1 = 1
    ∧ (scrapeGo false oracle items).1 =
        items.filterMap (fun it => parseMepProfile it.1 it.2 (oracle it.2)) := by
  obtain ⟨h1, h2⟩ := scrapeGo_characterisation oracle items
  have h3 := scrapeGo_length_split oracle items
  refine ⟨?_, ?_, h1⟩
  · omega
  · rw [h2, h]

/-- Witness for C4: a three-identifier run whose middle fetch fails,
instantiating `c4_skip_one`. -/
theorem c4_skip_one_witness :
    (scrapeGo false
      (fun u => if u = "u2".data then none else some
        { h1Text := none, textCandidates := [], hasGroupOfThe := false,
          politicalGroupText := none, countryBlockText := none,
          emailHref := none, twittHref := none })
      [("1".data, "u1".data), ("2".data, "u2".data), ("3".data, "u3".data)]).1.length + 1 = 3
    ∧ (scrapeGo false
      (fun u => if u = "u2".data then none else some
        { h1Text := none, textCandidates := [], hasGroupOfThe := false,
          politicalGroupText := none, countryBlockText := none,
          emailHref := none, twittHref := none })
      [("1".data, "u1".data), ("2".data, "u2".data), ("3".data, "u3".data)]).2.1 = 1 := by
  have h := c4_skip_one
    [("1".data, "u1".data), ("2".data, "u2".data), ("3".data, "u3".data)]
    (fun u => if u = "u2".data then none else some
      { h1Text := none, textCandidates := [], hasGroupOfThe := false,
        politicalGroupText := none, countryBlockText := none,
        emailHref := none, twittHref := none })
    (by decide)
  exact ⟨h.1, h.2.1⟩

/-- Claim C8: the output writer is deterministic over its input — two runs on
equal record sequences produce byte-identical file contents (in this
embedding, `writeCsvContent` is a pure function of the record sequence). -/
theorem c8_writer_deterministic (ms1 ms2 : List MEP) (h : ms1 = ms2) :
    writeCsvContent ms1 = writeCsvContent ms2 := by
  rw [h]

/-- Witness for C8: two runs of the writer on the same concrete one-record
sequence produce identical content, by `c8_writer_deterministic`. -/
theorem c8_writer_witness :
    writeCsvContent
      [{ mep_id := "1".data, name := "Jane; \x22Doe\x22".data, profile_url := "u".data,
          email := none, x_url := none, x_handle := none, political_group := none,
          country := none, national_party := none, country_and_national_party := none }] =
    writeCsvContent
      [{ mep_id := "1".data, name := "Jane; \x22Doe\x22".data, profile_url := "u".data,
          email := none, x_url := none, x_handle := none, political_group := none,
          country := none, national_party := none, country_and_national_party := none }] :=
  c8_writer_deterministic _ _ rfl

/- Lemmas for C10, part 1: the id index built by the merge. -/

theorem getD_mem_of_lt (l : List Rec) (j : Nat) (h : j < l.length) : l.getD j [] ∈ l := by
  rw [List.getD_eq_getElem l [] h]
  exact List.getElem_mem h

theorem idxLookup_idxSet_self (idx : List (FVal × Nat)) (k : FVal) (p : Nat) :
    idxLookup (idxSet idx k p) k = some p := by
  induction idx with
  | nil => simp [idxSet, idxLookup]
  | cons kv t ih =>
    obtain ⟨a, b⟩ := kv
    rw [idxSet]
    by_cases hk : a = k
    · rw [if_pos hk, idxLookup, if_pos hk]
    · rw [if_neg hk, idxLookup, if_neg hk]
      exact ih

theorem idxLookup_idxSet_ne (idx : List (FVal × Nat)) (k k' : FVal) (p : Nat)
    (h : k' ≠ k) : idxLookup (idxSet idx k p) k' = idxLookup idx k' := by
  have hkk : k ≠ k' := fun hc => h hc.symm
  induction idx with
  | nil =>
    rw [idxSet, idxLookup, idxLookup, if_neg hkk]
    rfl
  | cons kv t ih =>
    obtain ⟨a, b⟩ := kv
    rw [idxSet]
    by_cases hk : a = k
    · have hne : a ≠ k' := by rw [hk]; exact hkk
      rw [if_pos hk, idxLookup, idxLookup, if_neg hne, if_neg hne]
    · rw [if_neg hk, idxLookup, idxLookup]
      by_cases hk' : a = k'
      · rw [if_pos hk', if_pos hk']
      · rw [if_neg hk', if_neg hk', ih]

theorem buildIndexAux_lookup :
    ∀ (l : List Rec) (i : Nat) (idx : List (FVal × Nat)) (k : FVal),
      idxLookup (buildIndexAux l i idx) k =
        match lastPosOfId l k with
        | some j => some (i + j)
        | none => idxLookup idx k
  | [], i, idx, k => by rw [buildIndexAux, lastPosOfId]
  | r :: t, i, idx, k => by
    rw [buildIndexAux, lastPosOfId, matchesId]
    cases hg : recGet r idKey with
    | none =>
      dsimp only
      rw [buildIndexAux_lookup t (i + 1) idx k]
      cases hl : lastPosOfId t k with
      | some j =>
        show some (i + 1 + j) = some (i + (j + 1))
        congr 1
        omega
      | none => rfl
    | some v =>
      dsimp only
      cases ht : fvTruthy v with
      | false =>
        have h1 : (if false = true then idxSet idx v i else idx) = idx := by simp
        rw [h1, buildIndexAux_lookup t (i + 1) idx k]
        cases hl : lastPosOfId t k with
        | some j =>
          show some (i + 1 + j) = some (i + (j + 1))
          congr 1
          omega
        | none => simp
      | true =>
        have h1 : (if true = true then idxSet idx v i else idx) = idxSet idx v i := by simp
        rw [h1, buildIndexAux_lookup t (i + 1) (idxSet idx v i) k]
        cases hl : lastPosOfId t k with
        | some j =>
          show some (i + 1 + j) = some (i + (j + 1))
          congr 1
          omega
        | none =>
          by_cases hv : v = k
          · subst hv
            simp [idxLookup_idxSet_self]
          · have hik := idxLookup_idxSet_ne idx v k i (fun hc => hv hc.symm)
            simp [hv, hik]

theorem buildIndex_lookup (base : List Rec) (k : FVal) :
    idxLookup (buildIndex base) k = lastPosOfId base k := by
  rw [buildIndex, buildIndexAux_lookup]
  cases hl : lastPosOfId base k with
  | some j => show some (0 + j) = some j; rw [Nat.zero_add]
  | none => rfl

theorem lastPosOfId_lt_length :
    ∀ (l : List Rec) (k : FVal) (j : Nat), lastPosOfId l k = some j → j < l.length
  | [], k, j => by intro h; simp [lastPosOfId] at h
  | r :: t, k, j => by
    intro h
    rw [lastPosOfId] at h
    cases hl : lastPosOfId t k with
    | some j' =>
      rw [hl] at h
      obtain rfl := Option.some_inj.mp h
      have := lastPosOfId_lt_length t k j' hl
      simp only [List.length_cons]
      omega
    | none =>
      rw [hl] at h
      by_cases hm : matchesId r k
      · rw [if_pos hm] at h
        obtain rfl := Option.some_inj.mp h
        simp
      · rw [if_neg hm] at h
        cases h

theorem lastPosOfId_none_of_not_truthy :
    ∀ (l : List Rec) (k : FVal), fvTruthy k = false → lastPosOfId l k = none
  | [], k => by intro _; rfl
  | r :: t, k => by
    intro h
    rw [lastPosOfId, lastPosOfId_none_of_not_truthy t k h]
    rw [if_neg]
    rw [matchesId]
    cases hg : recGet r idKey with
    | none => simp
    | some v =>
      by_cases hv : v = k
      · subst hv; simp [h]
      · simp [hv]

theorem lastPosOfId_none_iff (l : List Rec) (k : FVal) :
    lastPosOfId l k = none ↔ ∀ r ∈ l, matchesId r k = false := by
  induction l with
  | nil => simp [lastPosOfId]
  | cons r t ih =>
    rw [lastPosOfId]
    cases hl : lastPosOfId t k with
    | some j =>
      constructor
      · intro h; cases h
      · intro h
        have : lastPosOfId t k = none := ih.mpr (fun r' hr' => h r' (List.mem_cons_of_mem _ hr'))
        rw [this] at hl
        cases hl
    | none =>
      by_cases hm : matchesId r k
      · rw [if_pos hm]
        constructor
        · intro h; cases h
        · intro h
          rw [h r (List.mem_cons_self r t)] at hm
          cases hm
      · rw [if_neg hm]
        constructor
        · intro _ r' hr'
          rcases List.mem_cons.mp hr' with rfl | hr'
          · simpa using hm
          · exact (ih.mp hl) r' hr'
        · intro _; rfl

theorem matchesId_of_truthy (k : FVal) (hk : fvTruthy k = true) (r : Rec) :
    matchesId r k = decide (recGet r idKey = some k) := by
  rw [matchesId]
  cases hg : recGet r idKey with
  | none => simp
  | some v =>
    by_cases hv : v = k
    · subst hv; simp [hk]
    · simp [hv, fun h : some v = some k => hv (Option.some_inj.mp h)]

theorem lastPosOfId_some_iff (l : List Rec)
    (hnd : (l.map (fun r => recGet r idKey)).Nodup) (k : FVal) (hk : fvTruthy k = true) :
    ∀ j, lastPosOfId l k = some j ↔ j < l.length ∧ recGet (l.getD j []) idKey = some k := by
  induction l with
  | nil => intro j; simp [lastPosOfId]
  | cons r t ih =>
    rw [List.map_cons] at hnd
    obtain ⟨hnotin, hndt⟩ := List.nodup_cons.mp hnd
    intro j
    rw [lastPosOfId]
    cases hl : lastPosOfId t k with
    | some j' =>
      have hj' := (ih hndt j').mp hl
      constructor
      · intro h
        obtain rfl := Option.some_inj.mp h
        refine ⟨by simp only [List.length_cons]; omega, ?_⟩
        rw [List.getD_cons_succ]
        exact hj'.2
      · rintro ⟨hjl, hjg⟩
        cases j with
        | zero =>
          exfalso
          rw [List.getD_cons_zero] at hjg
          refine hnotin ?_
          have hmem : t.getD j' [] ∈ t := getD_mem_of_lt t j' hj'.1
          have hmm : recGet (t.getD j' []) idKey ∈ t.map (fun r => recGet r idKey) :=
            List.mem_map_of_mem _ hmem
          rw [hj'.2, ← hjg] at hmm
          exact hmm
        | succ j'' =>
          rw [List.getD_cons_succ] at hjg
          have hlp : lastPosOfId t k = some j'' :=
            (ih hndt j'').mpr ⟨by simpa [Nat.succ_lt_succ_iff] using hjl, hjg⟩
          rw [hl] at hlp
          obtain rfl := Option.some_inj.mp hlp
          rfl
    | none =>
      have hnone := (lastPosOfId_none_iff t k).mp hl
      by_cases hm : matchesId r k
      · rw [if_pos hm]
        rw [matchesId_of_truthy k hk] at hm
        have hg : recGet r idKey = some k := by simpa using hm
        constructor
        · intro h
          obtain rfl := Option.some_inj.mp h
          exact ⟨by simp, by simpa using hg⟩
        · rintro ⟨hjl, hjg⟩
          cases j with
          | zero => rfl
          | succ j'' =>
            exfalso
            rw [List.getD_cons_succ] at hjg
            have hjl' : j'' < t.length := by simpa [Nat.succ_lt_succ_iff] using hjl
            have hmem : t.getD j'' [] ∈ t := getD_mem_of_lt t j'' hjl'
            have hfalse := hnone _ hmem
            rw [matchesId_of_truthy k hk] at hfalse
            simp only [decide_eq_false_iff_not] at hfalse
            exact hfalse hjg
      · rw [if_neg hm]
        rw [matchesId_of_truthy k hk] at hm
        simp only [decide_eq_true_eq] at hm
        constructor
        · intro h; cases h
        · rintro ⟨hjl, hjg⟩
          exfalso
          cases j with
          | zero =>
            rw [List.getD_cons_zero] at hjg
            exact hm hjg
          | succ j'' =>
            rw [List.getD_cons_succ] at hjg
            have hjl' : j'' < t.length := by simpa [Nat.succ_lt_succ_iff] using hjl
            have hmem : t.getD j'' [] ∈ t := getD_mem_of_lt t j'' hjl'
            have hfalse := hnone _ hmem
            rw [matchesId_of_truthy k hk] at hfalse
            simp only [decide_eq_false_iff_not] at hfalse
            exact hfalse hjg

/- Lemmas for C10, part 2: positional maps, stub lists and field application. -/

theorem mapIdxFrom_congr_from (f g : Nat → Rec → Rec) :
    ∀ (l : List Rec) (n : Nat), (∀ i r, n ≤ i → f i r = g i r) →
      mapIdxFrom f n l = mapIdxFrom g n l
  | [], n => by intro _; rfl
  | a :: t, n => by
    intro h
    rw [mapIdxFrom, mapIdxFrom, h n a (Nat.le_refl n),
      mapIdxFrom_congr_from f g t (n + 1) (fun i r hi => h i r (by omega))]

theorem mapIdxFrom_congr (f g : Nat → Rec → Rec) (h : ∀ i r, f i r = g i r)
    (l : List Rec) (n : Nat) : mapIdxFrom f n l = mapIdxFrom g n l :=
  mapIdxFrom_congr_from f g l n (fun i r _ => h i r)

theorem mapIdxFrom_id : ∀ (l : List Rec) (n : Nat), mapIdxFrom (fun _ r => r) n l = l
  | [], _ => rfl
  | a :: t, n => by rw [mapIdxFrom, mapIdxFrom_id t (n + 1)]

theorem mapIdxFrom_length (f : Nat → Rec → Rec) :
    ∀ (l : List Rec) (n : Nat), (mapIdxFrom f n l).length = l.length
  | [], _ => rfl
  | a :: t, n => by
    rw [mapIdxFrom, List.length_cons, List.length_cons, mapIdxFrom_length f t (n + 1)]

theorem mapIdxFrom_append_one (f : Nat → Rec → Rec) :
    ∀ (l : List Rec) (n : Nat) (x : Rec),
      mapIdxFrom f n (l ++ [x]) = mapIdxFrom f n l ++ [f (n + l.length) x]
  | [], n, x => by rw [List.nil_append, mapIdxFrom, mapIdxFrom, mapIdxFrom, List.length_nil,
      Nat.add_zero, List.nil_append]
  | a :: t, n, x => by
    rw [List.cons_append, mapIdxFrom, mapIdxFrom, mapIdxFrom_append_one f t (n + 1) x,
      List.cons_append, List.length_cons]
    have : n + 1 + t.length = n + (t.length + 1) := by omega
    rw [this]

theorem mapIdxFrom_getD (f : Nat → Rec → Rec) :
    ∀ (l : List Rec) (n i : Nat), i < l.length →
      (mapIdxFrom f n l).getD i [] = f (n + i) (l.getD i [])
  | [], n, i => by intro h; cases h
  | a :: t, n, i => by
    intro h
    cases i with
    | zero => rw [mapIdxFrom, List.getD_cons_zero, List.getD_cons_zero, Nat.add_zero]
    | succ i' =>
      rw [mapIdxFrom, List.getD_cons_succ, List.getD_cons_succ,
        mapIdxFrom_getD f t (n + 1) i' (by simpa [Nat.succ_lt_succ_iff] using h)]
      have : n + 1 + i' = n + (i' + 1) := by omega
      rw [this]

theorem mapIdxFrom_set (f g : Nat → Rec → Rec) :
    ∀ (l : List Rec) (n p : Nat) (x : Rec), p < l.length →
      (∀ i r, i ≠ n + p → f i r = g i r) →
      f (n + p) x = g (n + p) (l.getD p []) →
      mapIdxFrom f n (l.set p x) = mapIdxFrom g n l
  | [], n, p, x => by intro h; cases h
  | a :: t, n, p, x => by
    intro hp hne heq
    cases p with
    | zero =>
      rw [List.set_cons_zero, mapIdxFrom, mapIdxFrom]
      rw [Nat.add_zero] at heq
      rw [List.getD_cons_zero] at heq
      rw [heq, mapIdxFrom_congr_from f g t (n + 1) (fun i r hi => hne i r (by omega))]
    | succ p' =>
      rw [List.set_cons_succ, mapIdxFrom, mapIdxFrom]
      rw [hne n a (by omega)]
      rw [mapIdxFrom_set f g t (n + 1) p' x
        (by simpa [Nat.succ_lt_succ_iff] using hp)
        (fun i r hi => hne i r (by omega))
        (by
          have harith : n + 1 + p' = n + (p' + 1) := by omega
          rw [harith]
          rw [List.getD_cons_succ] at heq
          exact heq)]

theorem ovFieldsAtPos_nil_of_none (idx0 : List (FVal × Nat)) (p : Nat) :
    ∀ ovs : List (Str × OvVal),
      (∀ k ∈ ovs.map Prod.fst, idxLookup idx0 (.str k) ≠ some p) →
      ovFieldsAtPos idx0 p ovs = []
  | [] => by intro _; rfl
  | (k, v) :: rest => by
    intro h
    cases v with
    | obj fs =>
      rw [ovFieldsAtPos]
      rw [if_neg (h k (by simp))]
      exact ovFieldsAtPos_nil_of_none idx0 p rest
        (fun k' hk' => h k' (List.mem_cons_of_mem _ hk'))
    | scalar f =>
      rw [ovFieldsAtPos]
      exact ovFieldsAtPos_nil_of_none idx0 p rest
        (fun k' hk' => h k' (List.mem_cons_of_mem _ hk'))

theorem stubsOf_cons_scalar (idx0 : List (FVal × Nat)) (k : Str) (f : FVal)
    (rest : List (Str × OvVal)) :
    stubsOf idx0 ((k, .scalar f) :: rest) = stubsOf idx0 rest := by
  rw [stubsOf, stubsOf, List.filterMap_cons]

theorem stubsOf_cons_obj_some (idx0 : List (FVal × Nat)) (k : Str)
    (fs : List (Str × FVal)) (rest : List (Str × OvVal)) (p : Nat)
    (h : idxLookup idx0 (.str k) = some p) :
    stubsOf idx0 ((k, .obj fs) :: rest) = stubsOf idx0 rest := by
  rw [stubsOf, stubsOf, List.filterMap_cons]
  dsimp only
  rw [h]
  rfl

theorem stubsOf_cons_obj_none (idx0 : List (FVal × Nat)) (k : Str)
    (fs : List (Str × FVal)) (rest : List (Str × OvVal))
    (h : idxLookup idx0 (.str k) = none) :
    stubsOf idx0 ((k, .obj fs) :: rest) =
      applyFields [(idKey, .str k)] fs :: stubsOf idx0 rest := by
  rw [stubsOf, stubsOf, List.filterMap_cons]
  dsimp only
  rw [h]
  rfl

theorem recGet_recSet_ne :
    ∀ (r : Rec) (k k' : Str) (v : FVal), k ≠ k' →
      recGet (recSet r k v) k' = recGet r k'
  | [], k, k', v => by
    intro h
    rw [recSet, recGet, recGet, if_neg h]
    rfl
  | (a, b) :: t, k, k', v => by
    intro h
    rw [recSet]
    by_cases ha : a = k
    · have ha' : a ≠ k' := by rw [ha]; exact h
      rw [if_pos ha, recGet, recGet, if_neg ha', if_neg ha']
    · rw [if_neg ha, recGet, recGet]
      by_cases ha' : a = k'
      · rw [if_pos ha', if_pos ha']
      · rw [if_neg ha', if_neg ha']
        exact recGet_recSet_ne t k k' v h

theorem recGet_applyFields_not_mem :
    ∀ (fs : List (Str × FVal)) (r : Rec) (key : Str),
      key ∉ fs.map Prod.fst → recGet (applyFields r fs) key = recGet r key
  | [], r, key => by intro _; rfl
  | (k, v) :: t, r, key => by
    intro h
    rw [List.map_cons, List.mem_cons] at h
    push_neg at h
    obtain ⟨h1, h2⟩ := h
    show recGet (applyFields (recSet r k v) t) key = recGet r key
    rw [recGet_applyFields_not_mem t (recSet r k v) key h2]
    exact recGet_recSet_ne r k key v (fun hc => h1 (by rw [hc]))

/- Lemmas for C10, part 3: the override fold rewrites the base positionally
and appends stubs. -/

theorem mergeFold_spec (idx0 : List (FVal × Nat)) (B : Nat)
    (hbound : ∀ s p, idxLookup idx0 (.str s) = some p → p < B)
    (hinj : ∀ s s' p, idxLookup idx0 (.str s) = some p →
      idxLookup idx0 (.str s') = some p → s = s') :
    ∀ (ovs : List (Str × OvVal)) (cur : List Rec) (idx : List (FVal × Nat)),
      (∀ k ∈ ovs.map Prod.fst, idxLookup idx (.str k) = idxLookup idx0 (.str k)) →
      (ovs.map Prod.fst).Nodup →
      B ≤ cur.length →
      (ovs.foldl mergeStep (cur, idx)).1 =
        mapIdxFrom (fun i r => applyFields r (ovFieldsAtPos idx0 i ovs)) 0 cur
          ++ stubsOf idx0 ovs
  | [], cur, idx => by
    intro _ _ _
    rw [List.foldl_nil]
    show cur = mapIdxFrom (fun i r => applyFields r (ovFieldsAtPos idx0 i [])) 0 cur
      ++ stubsOf idx0 []
    rw [stubsOf, List.filterMap_nil, List.append_nil]
    exact ((mapIdxFrom_congr _ (fun _ r => r) (fun i r => rfl) cur 0).trans
      (mapIdxFrom_id cur 0)).symm
  | (k, v) :: rest, cur, idx => by
    intro hkeys hnd hlen
    rw [List.map_cons] at hnd
    obtain ⟨hknotin, hndr⟩ := List.nodup_cons.mp hnd
    have hkeysr : ∀ k' ∈ rest.map Prod.fst,
        idxLookup idx (.str k') = idxLookup idx0 (.str k') :=
      fun k' hk' => hkeys k' (by rw [List.map_cons]; exact List.mem_cons_of_mem _ hk')
    have hkk := hkeys k (by rw [List.map_cons]; exact List.mem_cons_self _ _)
    rw [List.foldl_cons]
    cases v with
    | scalar f =>
      have hstep : mergeStep (cur, idx) (k, OvVal.scalar f) = (cur, idx) := by
        rw [mergeStep]
      rw [hstep, mergeFold_spec idx0 B hbound hinj rest cur idx hkeysr hndr hlen,
        stubsOf_cons_scalar]
      congr 1
    | obj fs =>
      cases hL : idxLookup idx0 (.str k) with
      | some p =>
        have hstep : mergeStep (cur, idx) (k, OvVal.obj fs) =
            (cur.set p (applyFields (cur.getD p []) fs), idx) := by
          rw [mergeStep]
          dsimp only
          rw [hkk, hL]
        have hp : p < B := hbound k p hL
        have hpc : p < cur.length := lt_of_lt_of_le hp hlen
        rw [hstep, mergeFold_spec idx0 B hbound hinj rest _ idx hkeysr hndr
          (by rw [List.length_set]; exact hlen)]
        rw [stubsOf_cons_obj_some idx0 k fs rest p hL]
        congr 1
        have hrestnil : ovFieldsAtPos idx0 p rest = [] := by
          refine ovFieldsAtPos_nil_of_none idx0 p rest ?_
          intro k' hk' hc
          exact hknotin (by rw [← hinj k' k p hc hL]; exact hk')
        refine mapIdxFrom_set _ _ cur 0 p _ hpc ?_ ?_
        · intro i r hi
          rw [ovFieldsAtPos]
          rw [if_neg (by
            rw [hL]
            intro hc
            exact hi (by rw [Nat.zero_add]; exact (Option.some_inj.mp hc).symm))]
        · rw [Nat.zero_add, hrestnil]
          show applyFields (cur.getD p []) fs = applyFields (cur.getD p [])
            (ovFieldsAtPos idx0 p ((k, OvVal.obj fs) :: rest))
          rw [ovFieldsAtPos, if_pos hL]
      | none =>
        have hstep : mergeStep (cur, idx) (k, OvVal.obj fs) =
            (cur ++ [applyFields [(idKey, .str k)] fs],
              idxSet idx (.str k) cur.length) := by
          rw [mergeStep]
          dsimp only
          rw [hkk, hL]
        have hkeysr' : ∀ k' ∈ rest.map Prod.fst,
            idxLookup (idxSet idx (.str k) cur.length) (.str k') =
              idxLookup idx0 (.str k') := by
          intro k' hk'
          have hne : (FVal.str k') ≠ (FVal.str k) := by
            intro hc
            injection hc with hc'
            exact hknotin (hc' ▸ hk')
          rw [idxLookup_idxSet_ne idx (.str k) (.str k') cur.length hne]
          exact hkeysr k' hk'
        rw [hstep, mergeFold_spec idx0 B hbound hinj rest _ _ hkeysr' hndr
          (by rw [List.length_append]; omega)]
        rw [stubsOf_cons_obj_none idx0 k fs rest hL]
        rw [mapIdxFrom_append_one]
        have hnone' : ∀ k' ∈ rest.map Prod.fst,
            idxLookup idx0 (.str k') ≠ some (0 + cur.length) := by
          intro k' hk' hc
          have := hbound k' (0 + cur.length) hc
          omega
        have hstub : applyFields (applyFields [(idKey, .str k)] fs)
            (ovFieldsAtPos idx0 (0 + cur.length) rest) =
            applyFields [(idKey, .str k)] fs := by
          rw [ovFieldsAtPos_nil_of_none idx0 (0 + cur.length) rest hnone']
          rfl
        rw [hstub, List.append_assoc, List.singleton_append]
        congr 1
        refine mapIdxFrom_congr _ _ (fun i r => ?_) cur 0
        rw [ovFieldsAtPos, if_neg (by rw [hL]; intro hc; cases hc)]

/- Lemmas for C10, part 4: claim-side reformulation. -/

theorem buildIndex_bound (base : List Rec) :
    ∀ s p, idxLookup (buildIndex base) (.str s) = some p → p < base.length := by
  intro s p h
  rw [buildIndex_lookup] at h
  exact lastPosOfId_lt_length base (.str s) p h

theorem truthy_of_lastPos_some (l : List Rec) (k : FVal) (p : Nat)
    (h : lastPosOfId l k = some p) : fvTruthy k = true := by
  cases ht : fvTruthy k
  · rw [lastPosOfId_none_of_not_truthy l k ht] at h
    cases h
  · rfl

theorem buildIndex_inj (base : List Rec)
    (hnd : (base.map (fun r => recGet r idKey)).Nodup) :
    ∀ s s' p, idxLookup (buildIndex base) (.str s) = some p →
      idxLookup (buildIndex base) (.str s') = some p → s = s' := by
  intro s s' p h h'
  rw [buildIndex_lookup] at h h'
  have ht := truthy_of_lastPos_some base _ p h
  have ht' := truthy_of_lastPos_some base _ p h'
  have hg := ((lastPosOfId_some_iff base hnd _ ht p).mp h).2
  have hg' := ((lastPosOfId_some_iff base hnd _ ht' p).mp h').2
  rw [hg] at hg'
  exact FVal.str.inj (Option.some_inj.mp hg')

theorem matchesId_eq_of_good (r : Rec) (hg : hasGoodId r = true) (k : FVal) :
    matchesId r k = decide (recGet r idKey = some k) := by
  rw [matchesId]
  rw [hasGoodId] at hg
  cases hrec : recGet r idKey with
  | none =>
    rw [hrec] at hg
    dsimp only at hg
    exact absurd hg (by decide)
  | some v =>
    rw [hrec] at hg
    cases v with
    | null =>
      dsimp only at hg
      exact absurd hg (by decide)
    | str s0 =>
      dsimp only at hg ⊢
      have htr : fvTruthy (.str s0) = true := hg
      rw [htr, Bool.and_true]
      refine decide_eq_decide.mpr ?_
      constructor
      · intro h; rw [h]
      · intro h; exact Option.some_inj.mp h

theorem buildIndex_isSome_iff_baseHasId (base : List Rec)
    (h1 : ∀ r ∈ base, hasGoodId r = true) (s : Str) :
    (idxLookup (buildIndex base) (.str s)).isSome = baseHasId base s := by
  rw [buildIndex_lookup]
  cases hb : baseHasId base s
  · have hall : ∀ r ∈ base, matchesId r (.str s) = false := by
      intro r hr
      rw [matchesId_eq_of_good r (h1 r hr)]
      rw [baseHasId] at hb
      have := List.any_eq_false.mp hb r hr
      simpa using this
    rw [(lastPosOfId_none_iff base (.str s)).mpr hall]
    rfl
  · rw [baseHasId, List.any_eq_true] at hb
    obtain ⟨r, hr, hrs⟩ := hb
    have hrs' : recGet r idKey = some (.str s) := by simpa using hrs
    have hm : matchesId r (.str s) = true := by
      rw [matchesId_eq_of_good r (h1 r hr)]
      simpa using hrs'
    cases hl : lastPosOfId base (.str s) with
    | none =>
      have := (lastPosOfId_none_iff base (.str s)).mp hl r hr
      rw [hm] at this
      cases this
    | some j => rfl

theorem stubsOf_length_eq (base : List Rec) (h1 : ∀ r ∈ base, hasGoodId r = true) :
    ∀ ovs : List (Str × OvVal),
      (stubsOf (buildIndex base) ovs).length = countNewStubs base ovs
  | [] => rfl
  | (k, v) :: rest => by
    have ih := stubsOf_length_eq base h1 rest
    cases v with
    | scalar f =>
      rw [stubsOf_cons_scalar]
      rw [countNewStubs, List.filter_cons]
      have : (isObjOv (k, OvVal.scalar f).2 && !baseHasId base (k, OvVal.scalar f).1) = false := by
        rw [isObjOv]
        rfl
      rw [this]
      simp only [Bool.false_eq_true, ite_false]
      exact ih
    | obj fs =>
      have hsome := buildIndex_isSome_iff_baseHasId base h1 k
      cases hb : baseHasId base k
      · rw [hb] at hsome
        have hL : idxLookup (buildIndex base) (.str k) = none := by
          cases hl : idxLookup (buildIndex base) (.str k)
          · rfl
          · rw [hl] at hsome; cases hsome
        rw [stubsOf_cons_obj_none _ _ _ _ hL, List.length_cons]
        rw [countNewStubs, List.filter_cons]
        have : (isObjOv (k, OvVal.obj fs).2 && !baseHasId base (k, OvVal.obj fs).1) = true := by
          show (isObjOv (OvVal.obj fs) && !baseHasId base k) = true
          rw [isObjOv, hb]
          rfl
        rw [this]
        simp only [ite_true, List.length_cons]
        rw [ih]
        rfl
      · rw [hb] at hsome
        obtain ⟨p, hp⟩ := Option.isSome_iff_exists.mp hsome
        rw [stubsOf_cons_obj_some _ _ _ _ p hp]
        rw [countNewStubs, List.filter_cons]
        have : (isObjOv (k, OvVal.obj fs).2 && !baseHasId base (k, OvVal.obj fs).1) = false := by
          show (isObjOv (OvVal.obj fs) && !baseHasId base k) = false
          rw [isObjOv, hb]
          rfl
        rw [this]
        simp only [Bool.false_eq_true, ite_false]
        exact ih

theorem ovFieldsAtPos_eq_ovEntryFields (base : List Rec)
    (hnd : (base.map (fun r => recGet r idKey)).Nodup)
    (i : Nat) (hi : i < base.length) (s : Str)
    (hid : recGet (base.getD i []) idKey = some (.str s))
    (htr : fvTruthy (.str s) = true) :
    ∀ ovs : List (Str × OvVal), (ovs.map Prod.fst).Nodup →
      ovFieldsAtPos (buildIndex base) i ovs = ovEntryFields s ovs := by
  have hiff : ∀ k, idxLookup (buildIndex base) (.str k) = some i ↔ k = s := by
    intro k
    constructor
    · intro h
      rw [buildIndex_lookup] at h
      have htk := truthy_of_lastPos_some base _ i h
      have hg := ((lastPosOfId_some_iff base hnd _ htk i).mp h).2
      rw [hid] at hg
      injection Option.some_inj.mp hg with hc
      exact hc.symm
    · intro h
      subst h
      rw [buildIndex_lookup]
      exact (lastPosOfId_some_iff base hnd _ htr i).mpr ⟨hi, hid⟩
  intro ovs
  induction ovs with
  | nil => intro _; rfl
  | cons kv rest ih =>
    obtain ⟨k, v⟩ := kv
    intro hndov
    rw [List.map_cons] at hndov
    obtain ⟨hknotin, hndr⟩ := List.nodup_cons.mp hndov
    cases v with
    | obj fs =>
      rw [ovFieldsAtPos, ovEntryFields]
      by_cases hk : k = s
      · rw [if_pos ((hiff k).mpr hk), if_pos hk]
      · rw [if_neg (fun hc => hk ((hiff k).mp hc)), if_neg hk]
        exact ih hndr
    | scalar f =>
      rw [ovFieldsAtPos, ovEntryFields]
      by_cases hk : k = s
      · rw [if_pos hk]
        refine ovFieldsAtPos_nil_of_none _ i rest ?_
        intro k' hk' hc
        have : k' = s := (hiff k').mp hc
        rw [← hk] at this
        exact hknotin (this ▸ hk')
      · rw [if_neg hk]
        exact ih hndr

/-- Counterexample to claim C10 as stated: when the base list contains two
records with the same id `"1"`, the merge indexes only the later one, so the
earlier record keeps its old value for key `a` even though the override
entry for its id names that key — the claim's positional description fails
on this input. -/
theorem c10_merge_counterexample :
    c10StatedB
      [[(idKey, .str "1".data), ("a".data, .str "x".data)], [(idKey, .str "1".data)]]
      [("1".data, .obj [("a".data, .str "y".data)])] = false
    ∧ applyOverrides
      [[(idKey, .str "1".data), ("a".data, .str "x".data)], [(idKey, .str "1".data)]]
      [("1".data, .obj [("a".data, .str "y".data)])] =
      [[(idKey, .str "1".data), ("a".data, .str "x".data)],
        [(idKey, .str "1".data), ("a".data, .str "y".data)]]
    ∧ ovEntryFields "1".data [("1".data, .obj [("a".data, .str "y".data)])] =
      [("a".data, .str "y".data)] := by
  refine ⟨by decide, by decide, by decide⟩

/-- Claim C10 amended: provided every base record has a non-empty string
`id`, base ids are pairwise distinct, and override keys are distinct (as the
keys of a JSON object are), the merge never removes or reorders base
records: the output has each base record at its original position with
exactly the keys of its override entry replaced or added and every other key
unchanged, records whose id has no override entry are unchanged, and the
output length is the base length plus the number of object-valued override
entries whose id is absent from the base. -/
theorem c10_merge_amended (base : List Rec) (ovs : List (Str × OvVal))
    (h1 : ∀ r ∈ base, hasGoodId r = true)
    (h2 : (base.map (fun r => recGet r idKey)).Nodup)
    (h3 : (ovs.map Prod.fst).Nodup) :
    (applyOverrides base ovs).length = base.length + countNewStubs base ovs
    ∧ (∀ i, i < base.length → ∀ s, recGet (base.getD i []) idKey = some (.str s) →
        (applyOverrides base ovs).getD i [] =
          applyFields (base.getD i []) (ovEntryFields s ovs))
    ∧ (∀ i, i < base.length → ∀ s, recGet (base.getD i []) idKey = some (.str s) →
        ∀ key, key ∉ (ovEntryFields s ovs).map Prod.fst →
          recGet ((applyOverrides base ovs).getD i []) key =
            recGet (base.getD i []) key)
    ∧ (∀ i, i < base.length → ∀ s, recGet (base.getD i []) idKey = some (.str s) →
        ovEntryFields s ovs = [] →
          (applyOverrides base ovs).getD i [] = base.getD i []) := by
  have hmain : applyOverrides base ovs =
      mapIdxFrom (fun i r => applyFields r (ovFieldsAtPos (buildIndex base) i ovs)) 0 base
        ++ stubsOf (buildIndex base) ovs := by
    rw [applyOverrides]
    exact mergeFold_spec (buildIndex base) base.length (buildIndex_bound base)
      (buildIndex_inj base h2) ovs base (buildIndex base) (fun k _ => rfl) h3
      (Nat.le_refl _)
  have hpos : ∀ i, i < base.length → ∀ s, recGet (base.getD i []) idKey = some (.str s) →
      (applyOverrides base ovs).getD i [] =
        applyFields (base.getD i []) (ovEntryFields s ovs) := by
    intro i hi s hid
    have htr : fvTruthy (.str s) = true := by
      have hgood := h1 (base.getD i []) (getD_mem_of_lt base i hi)
      rw [hasGoodId, hid] at hgood
      exact hgood
    rw [hmain]
    rw [List.getD_append _ _ _ _ (by rw [mapIdxFrom_length]; exact hi)]
    rw [mapIdxFrom_getD _ base 0 i hi, Nat.zero_add]
    rw [ovFieldsAtPos_eq_ovEntryFields base h2 i hi s hid htr ovs h3]
  refine ⟨?_, hpos, ?_, ?_⟩
  · rw [hmain, List.length_append, mapIdxFrom_length, stubsOf_length_eq base h1 ovs]
  · intro i hi s hid key hkey
    rw [hpos i hi s hid]
    exact recGet_applyFields_not_mem _ _ _ hkey
  · intro i hi s hid hnilov
    rw [hpos i hi s hid, hnilov]
    rfl

/-- Witness for C10 (amended): a concrete merge instantiating
`c10_merge_amended` — one override hits an existing id, one creates a stub,
and an untouched record stays identical. -/
theorem c10_merge_witness :
    (applyOverrides
      [[(idKey, .str "1".data), ("a".data, .str "x".data)], [(idKey, .str "2".data)]]
      [("2".data, .obj [("b".data, .null)]), ("3".data, .obj [])]).length = 3
    ∧ (applyOverrides
      [[(idKey, .str "1".data), ("a".data, .str "x".data)], [(idKey, .str "2".data)]]
      [("2".data, .obj [("b".data, .null)]), ("3".data, .obj [])]).getD 0 [] =
      [(idKey, .str "1".data), ("a".data, .str "x".data)] := by
  have h := c10_merge_amended
    [[(idKey, .str "1".data), ("a".data, .str "x".data)], [(idKey, .str "2".data)]]
    [("2".data, .obj [("b".data, .null)]), ("3".data, .obj [])]
    (by decide) (by decide) (by decide)
  constructor
  · exact h.1.trans (by decide)
  · exact (h.2.2.2 0 (by decide) "1".data (by decide) (by decide)).trans (by decide)
